import Mathlib

/-!
# GoTorrent — verification of the core subsystems

A shallow embedding, in Lean 4, of the engineering-dense parts of the
GoTorrent BitTorrent client: the bencode codec (`internal/bencode/encode.go`,
`internal/decode`), the metainfo model and info-hash computation
(`internal/torrent`), the piece manager (`internal/common/piece_manager.go`),
the peer handshake and state machine (`internal/peers`), and the compact
peer-list parser (`internal/peers/extract_peers.go`).

Modelling conventions:

* Go byte strings are `List Nat` (one `Nat` per byte).
* Go `int` / `int64` are `Int`; `strconv.Atoi`'s 64-bit range check is kept
  explicit (`goMinInt`, `goMaxInt`).
* Go maps are association lists.  The decoder's string-keyed dictionaries
  (`mapSet`) are kept sorted by key, so list equality of the representation
  is exactly extensional equality of the Go map; the piece manager's
  `map[int]*Piece` (`pmSet`) is in first-insertion order, adequate because
  no modelled method observes the map's iteration order.
* The streaming decoder (`io.Reader`) is a function from the byte list to a
  result together with the unconsumed suffix.  Its recursion is driven by a
  fuel parameter; `2 * length + 2` fuel is more than any run of the Go code
  can consume, so the top-level `Decode` is total like its Go counterpart.
* SHA-1 is kept as an explicit function parameter wherever the source calls
  `crypto/sha1`: the control flow of the code under study depends only on
  comparing the hash output with a stored expected hash.
-/

/-! ## Bytes and ASCII constants -/

/-- ASCII codes used by the bencode grammar. -/
def iByte : Nat := 105

/-- ASCII `l`. -/
def lByte : Nat := 108

/-- ASCII `d`. -/
def dByte : Nat := 100

/-- ASCII `e`. -/
def eByte : Nat := 101

/-- ASCII `:`. -/
def colonByte : Nat := 58

/-- ASCII `-`. -/
def minusByte : Nat := 45

/-- ASCII `+`. -/
def plusByte : Nat := 43

/-- A byte holding an ASCII decimal digit. -/
def isDigitByte (d : Nat) : Bool := 48 ≤ d && d ≤ 57

/-- Byte list of an ASCII Lean string, for readable statements. -/
def strBytes (s : String) : List Nat := s.toList.map Char.toNat

/-! ## Decimal notation (`fmt.Sprintf("%d", ·)`) and `strconv.Atoi` -/

/-- Decimal digits, fuel-driven so that the kernel can evaluate it; the
wrapper `natDecimal` always supplies enough fuel. -/
def natDecimalAux : Nat → Nat → List Nat
  | 0, _ => []
  | fuel + 1, n =>
    if n < 10 then [48 + n] else natDecimalAux fuel (n / 10) ++ [48 + n % 10]

/-- Decimal digits (ASCII, most significant first) of a natural number, as
produced by Go's `%d` verb: no leading zeros, `0` for zero. -/
def natDecimal (n : Nat) : List Nat := natDecimalAux (n + 1) n

/-- Decimal digits of an integer: a leading `-` for negative values. -/
def intDecimal (i : Int) : List Nat :=
  if i < 0 then minusByte :: natDecimal (-i).toNat else natDecimal i.toNat

/-- Value of a digit string (ASCII codes), most significant first. -/
def digitsVal (ds : List Nat) : Nat :=
  ds.foldl (fun a d => a * 10 + (d - 48)) 0

/-- Errors surfaced by the Go code.  `goPanic` stands for a runtime panic
(such as `make([]byte, n)` with negative `n`); the remaining constructors
stand for the various `error` values returned by the source. -/
inductive GoErr where
  | eofErr      -- an `io.Reader` returned `io.EOF` / `ErrUnexpectedEOF`
  | numErr      -- `strconv.Atoi` rejected the token (`ErrSyntax` / `ErrRange`)
  | keyErr      -- dictionary key was not a string
  | goPanic     -- runtime panic
  | lenErr      -- input has the wrong length
  | protoErr    -- handshake protocol-string mismatch
  | hashErr     -- handshake info-hash mismatch
  | fieldErr    -- metainfo field missing or of the wrong type
  | fuelErr     -- out of fuel (never reached by `Decode`)
deriving DecidableEq

/-- Largest Go `int` (64-bit). -/
def goMaxInt : Int := 9223372036854775807

/-- Smallest Go `int` (64-bit). -/
def goMinInt : Int := -9223372036854775808

/-- `strconv.Atoi`: an optional sign, then one or more decimal digits, and
the value must fit a signed 64-bit integer; anything else is an error. -/
def atoiSign (s : List Nat) : Bool × List Nat :=
  match s with
  | [] => (false, [])
  | c :: tl =>
    if c = minusByte then (true, tl)
    else if c = plusByte then (false, tl)
    else (false, c :: tl)

def atoi (s : List Nat) : Except GoErr Int :=
  let neg := (atoiSign s).1
  let ds := (atoiSign s).2
  if ds.isEmpty then .error .numErr
  else if ds.all isDigitByte then
    let v : Int := if neg then -(digitsVal ds : Int) else (digitsVal ds : Int)
    if v < goMinInt || goMaxInt < v then .error .numErr else .ok v
  else .error .numErr

/-! ### Decimal lemmas -/

theorem natDecimal_ne_nil (n : Nat) : natDecimal n ≠ [] := by
  unfold natDecimal natDecimalAux
  split
  · simp
  · simp

theorem natDecimalAux_digits :
    ∀ fuel n, n < fuel → ∀ d ∈ natDecimalAux fuel n, 48 ≤ d ∧ d ≤ 57 := by
  intro fuel
  induction fuel with
  | zero => intro n h; omega
  | succ fuel ih =>
    intro n h d hd
    unfold natDecimalAux at hd
    split at hd
    · simp only [List.mem_singleton] at hd
      omega
    · rw [List.mem_append] at hd
      rcases hd with hd | hd
      · exact ih (n / 10) (by omega) d hd
      · simp only [List.mem_singleton] at hd
        have := Nat.mod_lt n (show 0 < 10 by omega)
        omega

theorem natDecimal_digits (n : Nat) : ∀ d ∈ natDecimal n, 48 ≤ d ∧ d ≤ 57 :=
  natDecimalAux_digits (n + 1) n (by omega)

theorem digitsVal_append_singleton (ds : List Nat) (d : Nat) :
    digitsVal (ds ++ [d]) = digitsVal ds * 10 + (d - 48) := by
  simp [digitsVal, List.foldl_append]

theorem digitsVal_natDecimalAux :
    ∀ fuel n, n < fuel → digitsVal (natDecimalAux fuel n) = n := by
  intro fuel
  induction fuel with
  | zero => intro n h; omega
  | succ fuel ih =>
    intro n h
    unfold natDecimalAux
    split
    · simp [digitsVal]
    · rw [digitsVal_append_singleton, ih (n / 10) (by omega)]
      omega

theorem digitsVal_natDecimal (n : Nat) : digitsVal (natDecimal n) = n :=
  digitsVal_natDecimalAux (n + 1) n (by omega)

/-! ## The bencode value tree

The Go decoder returns an untyped tree: `int`, `string`, `[]interface` slices
and string-keyed maps.  `BValue` is that tagged union.  A Go map is
represented by its association list sorted by key (`mapSet` keeps the order
and overwrites duplicates), so two representations are equal exactly when the
maps are extensionally equal. -/

inductive BValue where
  | int (i : Int)
  | str (s : List Nat)
  | list (items : List BValue)
  | dict (entries : List (List Nat × BValue))

/-- Go string comparison (`<` on `string`): lexicographic on raw bytes. -/
def bytesLt : List Nat → List Nat → Bool
  | [], [] => false
  | [], _ :: _ => true
  | _ :: _, [] => false
  | a :: as, b :: bs => if a < b then true else if b < a then false else bytesLt as bs

theorem bytesLt_irrefl (s : List Nat) : bytesLt s s = false := by
  induction s with
  | nil => rfl
  | cons a as ih => simp [bytesLt, ih]

theorem bytesLt_asymm {a b : List Nat} (h : bytesLt a b = true) :
    bytesLt b a = false := by
  induction a generalizing b with
  | nil =>
    cases b with
    | nil => simp [bytesLt] at h ⊢
    | cons x xs => rfl
  | cons x xs ih =>
    cases b with
    | nil => simp [bytesLt] at h
    | cons y ys =>
      by_cases hxy : x < y
      · simp [bytesLt, hxy, Nat.lt_asymm hxy, Nat.ne_of_gt hxy]
      · by_cases hyx : y < x
        · simp [bytesLt, hxy, hyx] at h
        · have : x = y := by omega
          subst this
          simp only [bytesLt, if_neg hxy, if_neg hxy] at h ⊢
          exact ih h

theorem bytesLt_total {a b : List Nat} (h : a ≠ b) :
    bytesLt a b = true ∨ bytesLt b a = true := by
  induction a generalizing b with
  | nil =>
    cases b with
    | nil => exact absurd rfl h
    | cons y ys => left; rfl
  | cons x xs ih =>
    cases b with
    | nil => right; rfl
    | cons y ys =>
      by_cases hxy : x < y
      · left; simp [bytesLt, hxy]
      · by_cases hyx : y < x
        · right; simp [bytesLt, hyx]
        · have hxyeq : x = y := by omega
          subst hxyeq
          have hne : xs ≠ ys := by intro hc; exact h (by rw [hc])
          rcases ih hne with h' | h'
          · left; simpa [bytesLt] using h'
          · right; simpa [bytesLt] using h'

theorem bytesLt_trans {a b c : List Nat} (hab : bytesLt a b = true)
    (hbc : bytesLt b c = true) : bytesLt a c = true := by
  induction a generalizing b c with
  | nil =>
    cases c with
    | nil =>
      cases b with
      | nil => exact hab
      | cons y ys => simp [bytesLt] at hbc
    | cons z zs => rfl
  | cons x xs ih =>
    cases b with
    | nil => simp [bytesLt] at hab
    | cons y ys =>
      cases c with
      | nil => simp [bytesLt] at hbc
      | cons z zs =>
        simp only [bytesLt] at hab hbc ⊢
        by_cases hxy : x < y
        · by_cases hyz : y < z
          · simp [show x < z by omega]
          · by_cases hzy : z < y
            · simp [hyz, hzy] at hbc
            · have : y = z := by omega
              subst this
              simp [hxy]
        · by_cases hyx : y < x
          · simp [hxy, hyx] at hab
          · have : x = y := by omega
            subst this
            by_cases hyz : x < z
            · simp [hyz]
            · by_cases hzy : z < x
              · simp [hyz, hzy] at hbc
              · have : x = z := by omega
                subst this
                simp only [if_neg hxy] at hab hbc ⊢
                exact ih hab hbc

/-- A string-keyed Go map, as its key-sorted association list. -/
abbrev BDict := List (List Nat × BValue)

/-- Map assignment `m[k] = v`: insert in key order, overwrite an existing
binding.  This is the canonical representation of the updated Go map. -/
def mapSet (m : BDict) (k : List Nat) (v : BValue) : BDict :=
  match m with
  | [] => [(k, v)]
  | (k', v') :: tl =>
    if k = k' then (k, v) :: tl
    else if bytesLt k k' then (k, v) :: (k', v') :: tl
    else (k', v') :: mapSet tl k v

/-- Map lookup `m[k]`. -/
def mapGet (m : BDict) (k : List Nat) : Option BValue :=
  match m with
  | [] => none
  | (k', v') :: tl => if k = k' then some v' else mapGet tl k

/-- The association list has strictly ascending keys. -/
def keysSorted {A : Type} (l : List (List Nat × A)) : Prop :=
  List.Pairwise (fun a b => bytesLt a b = true) (l.map Prod.fst)

instance {A : Type} (l : List (List Nat × A)) : Decidable (keysSorted l) :=
  List.instDecidablePairwise _

theorem mem_mapSet {m : BDict} {k : List Nat} {v : BValue} :
    ∀ e ∈ mapSet m k v, e = (k, v) ∨ e ∈ m := by
  induction m with
  | nil => simp [mapSet]
  | cons hd tl ih =>
    intro e he
    obtain ⟨k', v'⟩ := hd
    unfold mapSet at he
    split at he
    · rw [List.mem_cons] at he
      rcases he with he | he
      · exact Or.inl he
      · exact Or.inr (List.mem_cons_of_mem _ he)
    · split at he
      · rw [List.mem_cons] at he
        rcases he with he | he
        · exact Or.inl he
        · exact Or.inr he
      · rw [List.mem_cons] at he
        rcases he with he | he
        · exact Or.inr (he ▸ List.mem_cons_self _ _)
        · rcases ih e he with h | h
          · exact Or.inl h
          · exact Or.inr (List.mem_cons_of_mem _ h)

theorem keysSorted_cons {A : Type} {e : List Nat × A} {tl : List (List Nat × A)} :
    keysSorted (e :: tl) ↔
      (∀ e' ∈ tl, bytesLt e.1 e'.1 = true) ∧ keysSorted tl := by
  simp only [keysSorted, List.map_cons, List.pairwise_cons, List.mem_map]
  constructor
  · rintro ⟨h1, h2⟩
    exact ⟨fun e' he' => h1 e'.1 ⟨e', he', rfl⟩, h2⟩
  · rintro ⟨h1, h2⟩
    exact ⟨by rintro _ ⟨e', he', rfl⟩; exact h1 e' he', h2⟩

theorem keysSorted_mapSet {m : BDict} (k : List Nat) (v : BValue)
    (hm : keysSorted m) : keysSorted (mapSet m k v) := by
  induction m with
  | nil => simp [mapSet, keysSorted]
  | cons hd tl ih =>
    obtain ⟨k', v'⟩ := hd
    rw [keysSorted_cons] at hm
    obtain ⟨hhd, htl⟩ := hm
    unfold mapSet
    split
    · next heq =>
      subst heq
      rw [keysSorted_cons]
      exact ⟨hhd, htl⟩
    · next hne =>
      split
      · next hlt =>
        rw [keysSorted_cons, keysSorted_cons]
        refine ⟨?_, hhd, htl⟩
        intro e' he'
        rw [List.mem_cons] at he'
        rcases he' with he' | he'
        · subst he'; exact hlt
        · -- k < k' and k' < e'.1 would need transitivity; instead use that
          -- bytesLt k k' holds and k' is below e'; we prove transitivity inline
          exact bytesLt_trans hlt (hhd e' he')
      · next hge =>
        rw [keysSorted_cons]
        constructor
        · intro e' he'
          rcases mem_mapSet e' he' with h | h
          · subst h
            rcases bytesLt_total (by intro hc; exact hne hc) with h' | h'
            · exact absurd h' hge
            · exact h'
          · exact hhd e' h
        · exact ih htl

theorem mapSet_append {m : BDict} {k : List Nat} (v : BValue)
    (h : ∀ e ∈ m, bytesLt e.1 k = true) : mapSet m k v = m ++ [(k, v)] := by
  induction m with
  | nil => rfl
  | cons hd tl ih =>
    obtain ⟨k', v'⟩ := hd
    have hk' : bytesLt k' k = true := h (k', v') (by simp)
    have hne : k ≠ k' := by
      intro hc; subst hc; rw [bytesLt_irrefl] at hk'; exact absurd hk' (by simp)
    have hnlt : ¬ (bytesLt k k' = true) := by
      rw [bytesLt_asymm hk']; simp
    unfold mapSet
    rw [if_neg hne, if_neg hnlt, ih (fun e he => h e (by simp [he]))]
    simp

/-! ## The bencode encoder (`internal/bencode/encode.go`)

`Encode` mirrors the Go functions `Encode` / `encodeInt` / `encodeString` /
`encodeList` / `encodeDict`.  The Go error paths (a `nil` list item, a `nil`
dictionary value, an unsupported dynamic type) are not representable in
`BValue`, so the encoder is total here.  `encodeDict` in the source collects
the map's keys, sorts them with `slices.Sort`, and then encodes each value at
its key; since encoding a value is pure, encoding the values first and then
sorting the (key, encoded value) pairs by key produces the same bytes, and
that is how the recursion is arranged below. -/

/-- Go `encodeInt`: `fmt.Sprintf("i%de", i)`. -/
def encodeInt (i : Int) : List Nat := iByte :: intDecimal i ++ [eByte]

/-- Go `encodeString`: `fmt.Sprintf("%d:%s", len(s), s)`. -/
def encodeString (s : List Nat) : List Nat :=
  natDecimal s.length ++ colonByte :: s

/-- Insert a `(key, encoded value)` pair into a key-sorted run. -/
def insortPair (e : List Nat × List Nat) :
    List (List Nat × List Nat) → List (List Nat × List Nat)
  | [] => [e]
  | e' :: tl => if bytesLt e.1 e'.1 then e :: e' :: tl else e' :: insortPair e tl

/-- Sort `(key, encoded value)` pairs by key: `slices.Sort(keys)`. -/
def sortPairs : List (List Nat × List Nat) → List (List Nat × List Nat)
  | [] => []
  | e :: tl => insortPair e (sortPairs tl)

/-- Emit the body of an encoded dictionary from sorted pairs:
`encodeString(key)` followed by the encoded value, for each key in order. -/
def dictBody : List (List Nat × List Nat) → List Nat
  | [] => []
  | (k, ev) :: tl => encodeString k ++ ev ++ dictBody tl

mutual

/-- Go `bencode.Encode`: dispatch on the dynamic type of the value. -/
def Encode : BValue → List Nat
  | .int i => encodeInt i
  | .str s => encodeString s
  | .list items => lByte :: EncodeItems items ++ [eByte]
  | .dict entries => dByte :: dictBody (sortPairs (EncodeBindings entries)) ++ [eByte]

/-- Go `encodeList`'s loop body: each item encoded in order. -/
def EncodeItems : List BValue → List Nat
  | [] => []
  | x :: xs => Encode x ++ EncodeItems xs

/-- The `(key, encoded value)` pairs of a dictionary, in map order. -/
def EncodeBindings : List (List Nat × BValue) → List (List Nat × List Nat)
  | [] => []
  | (k, v) :: tl => (k, Encode v) :: EncodeBindings tl

end

/-! ## The canonical bencoding (spec §3, §4.A)

`canonicalEnc` is the specification-side definition: integers in shortest
decimal, strings as `<len>:<raw bytes>`, dictionary entries emitted in the
stored (ascending) key order with no re-sorting.  It is compared against
`Encode` — the implementation — in the round-trip theorems. -/

mutual

/-- Canonical bencoding of a value, following the spec's words. -/
def canonicalEnc : BValue → List Nat
  | .int i => iByte :: intDecimal i ++ [eByte]
  | .str s => natDecimal s.length ++ colonByte :: s
  | .list items => lByte :: canonicalEncItems items ++ [eByte]
  | .dict entries => dByte :: canonicalEncEntries entries ++ [eByte]

/-- Canonical bencoding of a run of list items. -/
def canonicalEncItems : List BValue → List Nat
  | [] => []
  | x :: xs => canonicalEnc x ++ canonicalEncItems xs

/-- Canonical bencoding of a run of dictionary entries, in stored order. -/
def canonicalEncEntries : List (List Nat × BValue) → List Nat
  | [] => []
  | (k, v) :: tl =>
    (natDecimal k.length ++ colonByte :: k) ++ canonicalEnc v ++ canonicalEncEntries tl

end

mutual

/-- The values reachable from the Go decoder: integers within the 64-bit
range checked by `strconv.Atoi`, string lengths within that range (a Go
string's length is an `int`), and dictionaries in strictly ascending key
order — the canonical representation of a Go map. -/
def wf : BValue → Prop
  | .int i => goMinInt ≤ i ∧ i ≤ goMaxInt
  | .str s => (s.length : Int) ≤ goMaxInt
  | .list items => wfItems items
  | .dict entries => keysSorted entries ∧ wfEntries entries

/-- Every item of a list is well formed. -/
def wfItems : List BValue → Prop
  | [] => True
  | x :: xs => wf x ∧ wfItems xs

/-- Every entry of a dictionary has a bounded key and a well-formed value. -/
def wfEntries : List (List Nat × BValue) → Prop
  | [] => True
  | (k, v) :: tl => (k.length : Int) ≤ goMaxInt ∧ wf v ∧ wfEntries tl

end

theorem keyList_EncodeBindings (es : List (List Nat × BValue)) :
    (EncodeBindings es).map Prod.fst = es.map Prod.fst := by
  induction es with
  | nil => rfl
  | cons e tl ih =>
    obtain ⟨k, v⟩ := e
    simp [EncodeBindings, ih]

theorem sortPairs_sorted_id :
    ∀ l : List (List Nat × List Nat), keysSorted l → sortPairs l = l := by
  intro l
  induction l with
  | nil => intro _; rfl
  | cons e tl ih =>
    intro h
    rw [keysSorted_cons] at h
    obtain ⟨hhd, htl⟩ := h
    unfold sortPairs
    rw [ih htl]
    cases tl with
    | nil => rfl
    | cons e' tl' =>
      unfold insortPair
      rw [if_pos (hhd e' (by simp))]

/-- On well-formed values — in particular on everything the decoder can
return — the implementation's encoder emits exactly the canonical
bencoding. -/
theorem Encode_eq_canonical_aux :
    ∀ n, ∀ v : BValue, sizeOf v ≤ n → wf v → Encode v = canonicalEnc v := by
  intro n
  induction n with
  | zero =>
    intro v hv _
    exfalso
    cases v <;> simp at hv
  | succ n ih =>
    intro v hv hwf
    have hitems : ∀ its : List BValue, sizeOf its ≤ n → wfItems its →
        EncodeItems its = canonicalEncItems its := by
      intro its
      induction its with
      | nil => intro _ _; rfl
      | cons x xs ihx =>
        intro hsz hw
        simp only [List.cons.sizeOf_spec] at hsz
        obtain ⟨hwx, hwxs⟩ := hw
        unfold EncodeItems canonicalEncItems
        rw [ih x (by omega) hwx, ihx (by omega) hwxs]
    have hentries : ∀ es : List (List Nat × BValue), sizeOf es ≤ n → wfEntries es →
        dictBody (EncodeBindings es) = canonicalEncEntries es := by
      intro es
      induction es with
      | nil => intro _ _; rfl
      | cons e tl ihe =>
        intro hsz hw
        obtain ⟨k, v⟩ := e
        simp only [List.cons.sizeOf_spec, Prod.mk.sizeOf_spec] at hsz
        obtain ⟨hk, hwv, hwtl⟩ := hw
        unfold EncodeBindings dictBody canonicalEncEntries
        rw [ih v (by omega) hwv, ihe (by omega) hwtl]
        rfl
    cases v with
    | int i => rfl
    | str s => rfl
    | list items =>
      simp only [BValue.list.sizeOf_spec] at hv
      unfold Encode canonicalEnc
      rw [hitems items (by omega) hwf]
    | dict entries =>
      simp only [BValue.dict.sizeOf_spec] at hv
      obtain ⟨hsorted, hwe⟩ := hwf
      have hbind : keysSorted (EncodeBindings entries) := by
        unfold keysSorted
        rw [keyList_EncodeBindings]
        exact hsorted
      unfold Encode canonicalEnc
      rw [sortPairs_sorted_id _ hbind, hentries entries (by omega) hwe]

theorem Encode_eq_canonical (v : BValue) (h : wf v) :
    Encode v = canonicalEnc v :=
  Encode_eq_canonical_aux (sizeOf v) v le_rfl h

/-! ## The bencode decoder (`internal/decode`)

The Go decoder reads from an `io.Reader`; here the stream is the byte list
and each function returns the unconsumed suffix.  The mutual recursion of
`Decode` / `decodeList` / `decodeDict` is driven by a fuel counter that
strictly decreases on every call; since every recursive call also consumes
at least one byte out of every two steps, `2·length + 2` fuel can never run
out, and the wrapper `Decode` supplies exactly that. -/

/-- Read bytes up to (and consuming) the terminator `stop`.  Reaching the
end of the stream first is an error, as in Go `decodeInt`'s read loop. -/
def readUntil (stop : Nat) : List Nat → Except GoErr (List Nat × List Nat)
  | [] => .error .eofErr
  | b :: rest =>
    if b = stop then .ok ([], rest)
    else do
      let (content, r) ← readUntil stop rest
      .ok (b :: content, r)

/-- Go `decodeInt`: scan to `e`, then `strconv.Atoi`. -/
def decodeInt (input : List Nat) : Except GoErr (BValue × List Nat) := do
  let (digits, rest) ← readUntil eByte input
  let i ← atoi digits
  .ok (.int i, rest)

/-- The length-scanning loop of Go `decodeString`: read to `:`, but break
out of the loop silently on EOF. -/
def readLen : List Nat → (List Nat × List Nat)
  | [] => ([], [])
  | b :: rest =>
    if b = colonByte then ([], rest)
    else
      let (content, r) := readLen rest
      (b :: content, r)

/-- Go `decodeString`: the dispatched first byte plus the rest of the
length field, `strconv.Atoi`, then exactly `length` bytes via
`io.ReadFull`.  A negative parsed length makes `make([]byte, length)`
panic in Go, modelled as `goPanic`. -/
def decodeString (firstByte : Nat) (input : List Nat) :
    Except GoErr (BValue × List Nat) := do
  let scanned := readLen input
  let len ← atoi (firstByte :: scanned.1)
  if len < 0 then .error .goPanic
  else if (scanned.2.length : Int) < len then .error .eofErr
  else .ok (.str (scanned.2.take len.toNat), scanned.2.drop len.toNat)

mutual

/-- Go `Decode`: read one dispatch byte, then the typed sub-decoder. -/
def DecodeF : Nat → List Nat → Except GoErr (BValue × List Nat)
  | 0, _ => .error .fuelErr
  | _ + 1, [] => .error .eofErr
  | fuel + 1, b :: rest =>
    if b = iByte then decodeInt rest
    else if b = lByte then do
      let (items, r) ← decodeList fuel rest
      .ok (.list items, r)
    else if b = dByte then do
      let (entries, r) ← decodeDict fuel rest []
      .ok (.dict entries, r)
    else decodeString b rest

/-- Go `decodeList`: elements decoded until the terminating `e`; each
non-terminator byte is pushed back in front of the reader. -/
def decodeList : Nat → List Nat → Except GoErr (List BValue × List Nat)
  | 0, _ => .error .fuelErr
  | _ + 1, [] => .error .eofErr
  | fuel + 1, b :: rest =>
    if b = eByte then .ok ([], rest)
    else do
      let (v, r) ← DecodeF fuel (b :: rest)
      let (vs, r') ← decodeList fuel r
      .ok (v :: vs, r')

/-- Go `decodeDict`: key (must decode to a string) and value pairs until
the terminating `e`, assigned into the result map in stream order. -/
def decodeDict : Nat → List Nat → BDict → Except GoErr (BDict × List Nat)
  | 0, _, _ => .error .fuelErr
  | _ + 1, [], _ => .error .eofErr
  | fuel + 1, b :: rest, acc =>
    if b = eByte then .ok (acc, rest)
    else do
      let (kv, r) ← DecodeF fuel (b :: rest)
      match kv with
      | .str ks => do
        let (v, r') ← DecodeF fuel r
        decodeDict fuel r' (mapSet acc ks v)
      | _ => .error .keyErr

end

/-- The decoder on a finite stream: fuel `2·length + 2` never runs out. -/
def Decode (input : List Nat) : Except GoErr (BValue × List Nat) :=
  DecodeF (2 * input.length + 2) input

/-! ## Round-trip lemmas -/

theorem atoiSign_nosign {c : Nat} (tl : List Nat)
    (h1 : c ≠ minusByte) (h2 : c ≠ plusByte) :
    atoiSign (c :: tl) = (false, c :: tl) := by
  simp [atoiSign, h1, h2]

theorem readUntil_spec (stop : Nat) :
    ∀ content rest, stop ∉ content →
      readUntil stop (content ++ stop :: rest) = .ok (content, rest) := by
  intro content
  induction content with
  | nil =>
    intro rest _
    simp [readUntil]
  | cons b tl ih =>
    intro rest h
    rw [List.mem_cons] at h
    push_neg at h
    have hb : ¬ (b = stop) := fun hc => h.1 hc.symm
    show readUntil stop (b :: (tl ++ stop :: rest)) = .ok (b :: tl, rest)
    unfold readUntil
    rw [if_neg hb, ih rest h.2]
    rfl

theorem readLen_spec :
    ∀ content rest, colonByte ∉ content →
      readLen (content ++ colonByte :: rest) = (content, rest) := by
  intro content
  induction content with
  | nil =>
    intro rest _
    simp [readLen]
  | cons b tl ih =>
    intro rest h
    rw [List.mem_cons] at h
    push_neg at h
    have hb : ¬ (b = colonByte) := fun hc => h.1 hc.symm
    show readLen (b :: (tl ++ colonByte :: rest)) = (b :: tl, rest)
    unfold readLen
    rw [if_neg hb, ih rest h.2]

theorem atoi_ok_bounds {s : List Nat} {i : Int} (h : atoi s = .ok i) :
    goMinInt ≤ i ∧ i ≤ goMaxInt := by
  simp only [atoi] at h
  split at h
  · exact absurd h (by simp)
  · split at h
    · split at h
      · split at h
        · exact absurd h (by simp)
        · next hrange =>
          rw [Except.ok.injEq] at h
          subst h
          simp only [Bool.or_eq_true, decide_eq_true_eq] at hrange
          push_neg at hrange
          omega
      · split at h
        · exact absurd h (by simp)
        · next hrange =>
          rw [Except.ok.injEq] at h
          subst h
          simp only [Bool.or_eq_true, decide_eq_true_eq] at hrange
          push_neg at hrange
          omega
    · exact absurd h (by simp)

theorem atoi_natDecimal (n : Nat) (h : (n : Int) ≤ goMaxInt) :
    atoi (natDecimal n) = .ok (n : Int) := by
  rcases hsh : natDecimal n with _ | ⟨d, ds⟩
  · exact absurd hsh (natDecimal_ne_nil n)
  · have hd : 48 ≤ d ∧ d ≤ 57 := natDecimal_digits n d (by rw [hsh]; simp)
    have hall : (d :: ds).all isDigitByte = true := by
      rw [List.all_eq_true]
      intro x hx
      have := natDecimal_digits n x (by rw [hsh]; exact hx)
      simp only [isDigitByte, Bool.and_eq_true, decide_eq_true_eq]
      omega
    have hdv : digitsVal (d :: ds) = n := by
      rw [← hsh]; exact digitsVal_natDecimal n
    have hsign : atoiSign (d :: ds) = (false, d :: ds) :=
      atoiSign_nosign ds (by unfold minusByte; omega) (by unfold plusByte; omega)
    simp only [atoi, hsign, List.isEmpty_cons, Bool.false_eq_true, if_false,
      hall, if_true, hdv]
    rw [if_neg (by
      simp only [Bool.or_eq_true, decide_eq_true_eq]
      push_neg
      constructor
      · unfold goMinInt; omega
      · unfold goMaxInt at h ⊢; omega)]

theorem atoi_intDecimal (i : Int) (hlo : goMinInt ≤ i) (hhi : i ≤ goMaxInt) :
    atoi (intDecimal i) = .ok i := by
  unfold intDecimal
  split
  · next hneg =>
    rcases hsh : natDecimal (-i).toNat with _ | ⟨d, ds⟩
    · exact absurd hsh (natDecimal_ne_nil _)
    · have hall : (d :: ds).all isDigitByte = true := by
        rw [List.all_eq_true]
        intro x hx
        have := natDecimal_digits (-i).toNat x (by rw [hsh]; exact hx)
        simp only [isDigitByte, Bool.and_eq_true, decide_eq_true_eq]
        omega
      have hdv : digitsVal (d :: ds) = (-i).toNat := by
        rw [← hsh]; exact digitsVal_natDecimal _
      have hcast : (((-i).toNat : Nat) : Int) = -i := Int.toNat_of_nonneg (by omega)
      have hsign : atoiSign (minusByte :: d :: ds) = (true, d :: ds) := by
        simp [atoiSign]
      simp only [atoi, hsign, List.isEmpty_cons, Bool.false_eq_true, if_false,
        hall, if_true, hdv, eq_self_iff_true]
      rw [if_neg (by
        simp only [Bool.or_eq_true, decide_eq_true_eq]
        push_neg
        rw [hcast]
        constructor
        · unfold goMinInt at hlo ⊢; omega
        · unfold goMaxInt; omega)]
      rw [Except.ok.injEq, hcast]
      omega
  · next hpos =>
    have h0 : 0 ≤ i := by omega
    have hc : ((i.toNat : Nat) : Int) = i := Int.toNat_of_nonneg h0
    rw [show atoi (natDecimal i.toNat) = .ok ((i.toNat : Nat) : Int) from
      atoi_natDecimal i.toNat (by rw [hc]; exact hhi), hc]

theorem intDecimal_mem_range (i : Int) :
    ∀ d ∈ intDecimal i, d = 45 ∨ (48 ≤ d ∧ d ≤ 57) := by
  unfold intDecimal
  split
  · intro d hd
    rw [List.mem_cons] at hd
    rcases hd with hd | hd
    · left; exact hd
    · right; exact natDecimal_digits _ d hd
  · intro d hd
    right; exact natDecimal_digits _ d hd

theorem decodeInt_canonical (i : Int) (hlo : goMinInt ≤ i) (hhi : i ≤ goMaxInt)
    (rest : List Nat) :
    decodeInt (intDecimal i ++ eByte :: rest) = .ok (.int i, rest) := by
  have hnotin : eByte ∉ intDecimal i := by
    intro hmem
    rcases intDecimal_mem_range i eByte hmem with h | h
    · exact absurd h (by unfold eByte; omega)
    · exact absurd h (by unfold eByte; omega)
  unfold decodeInt
  rw [readUntil_spec eByte (intDecimal i) rest hnotin]
  show (atoi (intDecimal i)).bind _ = _
  rw [atoi_intDecimal i hlo hhi]
  rfl

theorem decodeString_canonical (s : List Nat) (hs : (s.length : Int) ≤ goMaxInt)
    {d : Nat} {dtl : List Nat} (hsh : natDecimal s.length = d :: dtl)
    (rest : List Nat) :
    decodeString d (dtl ++ colonByte :: (s ++ rest)) = .ok (.str s, rest) := by
  have hnotin : colonByte ∉ dtl := by
    intro hmem
    have := natDecimal_digits s.length colonByte (by rw [hsh]; simp [hmem])
    unfold colonByte at this
    omega
  unfold decodeString
  rw [readLen_spec dtl (s ++ rest) hnotin]
  show (atoi (d :: dtl)).bind _ = _
  rw [← hsh, atoi_natDecimal s.length hs]
  have h1 : ¬ ((s.length : Int) < 0) := by omega
  have h2 : ¬ (((s ++ rest).length : Int) < (s.length : Int)) := by
    rw [List.length_append]
    push_neg
    omega
  simp only [Except.bind, h1, if_false, h2, Int.toNat_natCast]
  rw [List.take_left, List.drop_left]

theorem canonicalEnc_head (v : BValue) :
    ∃ b tl, canonicalEnc v = b :: tl ∧ b ≠ eByte ∧ b ≠ colonByte := by
  cases v with
  | int i =>
    exact ⟨iByte, _, rfl, by unfold iByte eByte; omega, by unfold iByte colonByte; omega⟩
  | str s =>
    rcases hsh : natDecimal s.length with _ | ⟨d, dtl⟩
    · exact absurd hsh (natDecimal_ne_nil _)
    · have hd := natDecimal_digits s.length d (by rw [hsh]; simp)
      refine ⟨d, dtl ++ colonByte :: s, ?_, ?_, ?_⟩
      · show natDecimal s.length ++ colonByte :: s = d :: (dtl ++ colonByte :: s)
        rw [hsh]
        rfl
      · unfold eByte; omega
      · unfold colonByte; omega
  | list items =>
    exact ⟨lByte, _, rfl, by unfold lByte eByte; omega, by unfold lByte colonByte; omega⟩
  | dict entries =>
    exact ⟨dByte, _, rfl, by unfold dByte eByte; omega, by unfold dByte colonByte; omega⟩

theorem canonicalEnc_len_ge_two (v : BValue) : 2 ≤ (canonicalEnc v).length := by
  cases v with
  | int i =>
    show 2 ≤ (iByte :: intDecimal i ++ [eByte]).length
    simp
  | str s =>
    show 2 ≤ (natDecimal s.length ++ colonByte :: s).length
    rcases hsh : natDecimal s.length with _ | ⟨d, dtl⟩
    · exact absurd hsh (natDecimal_ne_nil _)
    · simp only [List.cons_append, List.length_cons, List.length_append]
      omega
  | list items =>
    show 2 ≤ (lByte :: canonicalEncItems items ++ [eByte]).length
    simp
  | dict entries =>
    show 2 ≤ (dByte :: canonicalEncEntries entries ++ [eByte]).length
    simp

theorem DecodeF_canonical_str (k : List Nat) (hk : (k.length : Int) ≤ goMaxInt)
    (fuel : Nat) (hf : 1 ≤ fuel) (rest : List Nat) :
    DecodeF fuel ((natDecimal k.length ++ colonByte :: k) ++ rest) =
      .ok (.str k, rest) := by
  obtain ⟨f, rfl⟩ : ∃ f, fuel = f + 1 := ⟨fuel - 1, by omega⟩
  rcases hsh : natDecimal k.length with _ | ⟨d, dtl⟩
  · exact absurd hsh (natDecimal_ne_nil _)
  · have hd := natDecimal_digits k.length d (by rw [hsh]; simp)
    rw [show ((d :: dtl) ++ colonByte :: k) ++ rest =
        d :: (dtl ++ colonByte :: (k ++ rest)) by simp]
    unfold DecodeF
    rw [if_neg (show ¬ (d = iByte) by unfold iByte; omega),
      if_neg (show ¬ (d = lByte) by unfold lByte; omega),
      if_neg (show ¬ (d = dByte) by unfold dByte; omega)]
    exact decodeString_canonical k hk hsh rest

/-- Decoding the canonical bencoding of any well-formed value returns that
value and leaves the trailing bytes untouched, for any sufficient fuel. -/
theorem DecodeF_canonical_aux : ∀ n, ∀ v : BValue, sizeOf v ≤ n → wf v →
    ∀ rest fuel, (canonicalEnc v).length ≤ fuel →
    DecodeF fuel (canonicalEnc v ++ rest) = .ok (v, rest) := by
  intro n
  induction n with
  | zero =>
    intro v hv
    exfalso
    cases v <;> simp at hv
  | succ n ih =>
    have hlist : ∀ its : List BValue, sizeOf its ≤ n → wfItems its →
        ∀ rest fuel, (canonicalEncItems its).length + 1 ≤ fuel →
        decodeList fuel (canonicalEncItems its ++ eByte :: rest) = .ok (its, rest) := by
      intro its
      induction its with
      | nil =>
        intro _ _ rest fuel hfuel
        obtain ⟨f, rfl⟩ : ∃ f, fuel = f + 1 := ⟨fuel - 1, by omega⟩
        show decodeList (f + 1) (eByte :: rest) = .ok ([], rest)
        unfold decodeList
        rw [if_pos rfl]
      | cons x xs ihx =>
        intro hsz hw rest fuel hfuel
        simp only [List.cons.sizeOf_spec] at hsz
        obtain ⟨hwx, hwxs⟩ := hw
        have hlx := canonicalEnc_len_ge_two x
        have hlen : (canonicalEncItems (x :: xs)).length =
            (canonicalEnc x).length + (canonicalEncItems xs).length := by
          show (canonicalEnc x ++ canonicalEncItems xs).length = _
          simp
        rw [hlen] at hfuel
        obtain ⟨f, rfl⟩ : ∃ f, fuel = f + 1 := ⟨fuel - 1, by omega⟩
        obtain ⟨bx, tlx, hbx, hbxe, _⟩ := canonicalEnc_head x
        rw [show canonicalEncItems (x :: xs) ++ eByte :: rest =
            bx :: (tlx ++ (canonicalEncItems xs ++ eByte :: rest)) by
          show (canonicalEnc x ++ canonicalEncItems xs) ++ eByte :: rest = _
          rw [hbx]
          simp]
        unfold decodeList
        rw [if_neg hbxe]
        show (DecodeF f (bx :: (tlx ++ (canonicalEncItems xs ++ eByte :: rest)))).bind _ = _
        rw [show bx :: (tlx ++ (canonicalEncItems xs ++ eByte :: rest)) =
            canonicalEnc x ++ (canonicalEncItems xs ++ eByte :: rest) by rw [hbx]; rfl]
        rw [ih x (by omega) hwx _ f (by omega)]
        show (decodeList f (canonicalEncItems xs ++ eByte :: rest)).bind _ = _
        rw [ihx (by omega) hwxs rest f (by omega)]
        rfl
    have hdict : ∀ es : List (List Nat × BValue), sizeOf es ≤ n → wfEntries es →
        ∀ acc rest fuel, keysSorted (acc ++ es) →
        (canonicalEncEntries es).length + 1 ≤ fuel →
        decodeDict fuel (canonicalEncEntries es ++ eByte :: rest) acc = .ok (acc ++ es, rest) := by
      intro es
      induction es with
      | nil =>
        intro _ _ acc rest fuel _ hfuel
        obtain ⟨f, rfl⟩ : ∃ f, fuel = f + 1 := ⟨fuel - 1, by omega⟩
        show decodeDict (f + 1) (eByte :: rest) acc = .ok (acc ++ [], rest)
        unfold decodeDict
        rw [if_pos rfl, List.append_nil]
      | cons e tl ihe =>
        intro hsz hw acc rest fuel hsor hfuel
        obtain ⟨k, v⟩ := e
        simp only [List.cons.sizeOf_spec, Prod.mk.sizeOf_spec] at hsz
        obtain ⟨hk, hwv, hwtl⟩ := hw
        have hlv := canonicalEnc_len_ge_two v
        rcases hsh : natDecimal k.length with _ | ⟨dk, dtk⟩
        · exact absurd hsh (natDecimal_ne_nil _)
        have hdk := natDecimal_digits k.length dk (by rw [hsh]; simp)
        have hlen : (canonicalEncEntries ((k, v) :: tl)).length =
            (natDecimal k.length).length + 1 + k.length + (canonicalEnc v).length +
              (canonicalEncEntries tl).length := by
          show ((natDecimal k.length ++ colonByte :: k) ++ canonicalEnc v ++
            canonicalEncEntries tl).length = _
          simp
          omega
        rw [hlen, hsh] at hfuel
        simp only [List.length_cons] at hfuel
        obtain ⟨f, rfl⟩ : ∃ f, fuel = f + 1 := ⟨fuel - 1, by omega⟩
        -- every key already in the accumulator is below the new key
        have hacc_lt : ∀ e ∈ acc, bytesLt e.1 k = true := by
          intro e he
          unfold keysSorted at hsor
          rw [List.map_append] at hsor
          have hcross := (List.pairwise_append.mp hsor).2.2
          exact hcross e.1 (List.mem_map_of_mem Prod.fst he) k (by simp)
        rw [show canonicalEncEntries ((k, v) :: tl) ++ eByte :: rest =
            dk :: (dtk ++ colonByte :: (k ++ (canonicalEnc v ++
              (canonicalEncEntries tl ++ eByte :: rest)))) by
          show ((natDecimal k.length ++ colonByte :: k) ++ canonicalEnc v ++
            canonicalEncEntries tl) ++ eByte :: rest = _
          rw [hsh]
          simp]
        unfold decodeDict
        rw [if_neg (show ¬ (dk = eByte) by unfold eByte; omega)]
        show (DecodeF f (dk :: (dtk ++ colonByte :: (k ++ (canonicalEnc v ++
          (canonicalEncEntries tl ++ eByte :: rest)))))).bind _ = _
        rw [show dk :: (dtk ++ colonByte :: (k ++ (canonicalEnc v ++
            (canonicalEncEntries tl ++ eByte :: rest)))) =
            (natDecimal k.length ++ colonByte :: k) ++ (canonicalEnc v ++
              (canonicalEncEntries tl ++ eByte :: rest)) by rw [hsh]; simp]
        rw [DecodeF_canonical_str k hk f (by omega) _]
        show (DecodeF f (canonicalEnc v ++ (canonicalEncEntries tl ++ eByte :: rest))).bind _ = _
        rw [ih v (by omega) hwv _ f (by omega)]
        show decodeDict f (canonicalEncEntries tl ++ eByte :: rest) (mapSet acc k v) = _
        rw [mapSet_append v hacc_lt]
        rw [ihe (by omega) hwtl (acc ++ [(k, v)]) rest f
          (by rw [List.append_assoc]; simpa using hsor) (by omega)]
        rw [List.append_assoc]
        simp
    intro v hv hwf rest fuel hfuel
    cases v with
    | int i =>
      obtain ⟨hlo, hhi⟩ := hwf
      obtain ⟨f, rfl⟩ : ∃ f, fuel = f + 1 :=
        ⟨fuel - 1, by have := canonicalEnc_len_ge_two (.int i); omega⟩
      rw [show canonicalEnc (.int i) ++ rest = iByte :: (intDecimal i ++ eByte :: rest) by
        show (iByte :: intDecimal i ++ [eByte]) ++ rest = _
        simp]
      unfold DecodeF
      rw [if_pos rfl]
      exact decodeInt_canonical i hlo hhi rest
    | str s =>
      exact DecodeF_canonical_str s hwf fuel
        (by have := canonicalEnc_len_ge_two (.str s); omega) rest
    | list items =>
      simp only [BValue.list.sizeOf_spec] at hv
      have hlen : (canonicalEnc (.list items)).length =
          (canonicalEncItems items).length + 2 := by
        show (lByte :: canonicalEncItems items ++ [eByte]).length = _
        simp
      rw [hlen] at hfuel
      obtain ⟨f, rfl⟩ : ∃ f, fuel = f + 1 := ⟨fuel - 1, by omega⟩
      rw [show canonicalEnc (.list items) ++ rest =
          lByte :: (canonicalEncItems items ++ eByte :: rest) by
        show (lByte :: canonicalEncItems items ++ [eByte]) ++ rest = _
        simp]
      unfold DecodeF
      rw [if_neg (show ¬ (lByte = iByte) by unfold lByte iByte; omega), if_pos rfl]
      show (decodeList f (canonicalEncItems items ++ eByte :: rest)).bind _ = _
      rw [hlist items (by omega) hwf rest f (by omega)]
      rfl
    | dict entries =>
      simp only [BValue.dict.sizeOf_spec] at hv
      obtain ⟨hsor, hwe⟩ := hwf
      have hlen : (canonicalEnc (.dict entries)).length =
          (canonicalEncEntries entries).length + 2 := by
        show (dByte :: canonicalEncEntries entries ++ [eByte]).length = _
        simp
      rw [hlen] at hfuel
      obtain ⟨f, rfl⟩ : ∃ f, fuel = f + 1 := ⟨fuel - 1, by omega⟩
      rw [show canonicalEnc (.dict entries) ++ rest =
          dByte :: (canonicalEncEntries entries ++ eByte :: rest) by
        show (dByte :: canonicalEncEntries entries ++ [eByte]) ++ rest = _
        simp]
      unfold DecodeF
      rw [if_neg (show ¬ (dByte = iByte) by unfold dByte iByte; omega),
        if_neg (show ¬ (dByte = lByte) by unfold dByte lByte; omega), if_pos rfl]
      show (decodeDict f (canonicalEncEntries entries ++ eByte :: rest) []).bind _ = _
      rw [hdict entries (by omega) hwe [] rest f hsor (by omega)]
      rfl

theorem wfEntries_iff (es : List (List Nat × BValue)) :
    wfEntries es ↔ ∀ e ∈ es, (e.1.length : Int) ≤ goMaxInt ∧ wf e.2 := by
  induction es with
  | nil => simp [wfEntries]
  | cons e tl ih =>
    obtain ⟨k, v⟩ := e
    simp only [wfEntries, ih, List.mem_cons]
    constructor
    · rintro ⟨h1, h2, h3⟩ e (rfl | he)
      · exact ⟨h1, h2⟩
      · exact h3 e he
    · intro h
      exact ⟨(h _ (Or.inl rfl)).1, (h _ (Or.inl rfl)).2, fun e he => h e (Or.inr he)⟩

/-- Everything the decoder returns is well formed: integers in the `Atoi`
range, string lengths bounded, dictionaries in strictly ascending key
order. -/
theorem decode_wf_aux : ∀ fuel,
    (∀ input v rest, DecodeF fuel input = .ok (v, rest) → wf v) ∧
    (∀ input vs rest, decodeList fuel input = .ok (vs, rest) → wfItems vs) ∧
    (∀ input acc es rest, keysSorted acc → wfEntries acc →
      decodeDict fuel input acc = .ok (es, rest) → keysSorted es ∧ wfEntries es) := by
  intro fuel
  induction fuel with
  | zero =>
    refine ⟨?_, ?_, ?_⟩
    · intro input v rest h
      simp [DecodeF] at h
    · intro input vs rest h
      simp [decodeList] at h
    · intro input acc es rest _ _ h
      simp [decodeDict] at h
  | succ fuel ih =>
    obtain ⟨ih1, ih2, ih3⟩ := ih
    refine ⟨?_, ?_, ?_⟩
    · intro input v rest h
      match input with
      | [] => simp [DecodeF] at h
      | b :: rest' =>
        unfold DecodeF at h
        split at h
        · -- decodeInt
          unfold decodeInt at h
          rcases hru : readUntil eByte rest' with e | ⟨digits, r⟩ <;>
            rw [hru] at h <;> simp only [bind, Except.bind] at h
          · simp at h
          · rcases hat : atoi digits with e | i <;> rw [hat] at h
            · simp at h
            · rw [Except.ok.injEq, Prod.mk.injEq] at h
              obtain ⟨hv, _⟩ := h
              subst hv
              exact atoi_ok_bounds hat
        · split at h
          · -- decodeList
            rcases hdl : decodeList fuel rest' with e | ⟨items, r⟩ <;>
              rw [hdl] at h <;> simp only [bind, Except.bind] at h
            · simp at h
            · rw [Except.ok.injEq, Prod.mk.injEq] at h
              obtain ⟨hv, _⟩ := h
              subst hv
              exact ih2 rest' items r hdl
          · split at h
            · -- decodeDict
              rcases hdd : decodeDict fuel rest' [] with e | ⟨es, r⟩ <;>
                rw [hdd] at h <;> simp only [bind, Except.bind] at h
              · simp at h
              · rw [Except.ok.injEq, Prod.mk.injEq] at h
                obtain ⟨hv, _⟩ := h
                subst hv
                exact ih3 rest' [] es r (by simp [keysSorted]) trivial hdd
            · -- decodeString
              simp only [decodeString] at h
              rcases hat : atoi (b :: (readLen rest').1) with e | len <;>
                rw [hat] at h <;> simp only [bind, Except.bind] at h
              · simp at h
              · split at h
                · simp at h
                · split at h
                  · simp at h
                  · next hneg hlen =>
                    rw [Except.ok.injEq, Prod.mk.injEq] at h
                    obtain ⟨hv, _⟩ := h
                    subst hv
                    show ((((readLen rest').2.take len.toNat).length : Nat) : Int) ≤ goMaxInt
                    have hb := atoi_ok_bounds hat
                    have : ((readLen rest').2.take len.toNat).length ≤ len.toNat := by
                      rw [List.length_take]
                      omega
                    push_neg at hneg
                    omega
    · intro input vs rest h
      match input with
      | [] => simp [decodeList] at h
      | b :: rest' =>
        unfold decodeList at h
        split at h
        · rw [Except.ok.injEq, Prod.mk.injEq] at h
          obtain ⟨hv, _⟩ := h
          subst hv
          trivial
        · rcases hd1 : DecodeF fuel (b :: rest') with e | ⟨v1, r1⟩ <;>
            rw [hd1] at h <;> simp only [bind, Except.bind] at h
          · simp at h
          · rcases hd2 : decodeList fuel r1 with e | ⟨vs1, r2⟩ <;> rw [hd2] at h
            · simp at h
            · rw [Except.ok.injEq, Prod.mk.injEq] at h
              obtain ⟨hv, _⟩ := h
              subst hv
              exact ⟨ih1 _ _ _ hd1, ih2 _ _ _ hd2⟩
    · intro input acc es rest hsor hwe h
      match input with
      | [] => simp [decodeDict] at h
      | b :: rest' =>
        unfold decodeDict at h
        split at h
        · rw [Except.ok.injEq, Prod.mk.injEq] at h
          obtain ⟨hv, _⟩ := h
          subst hv
          exact ⟨hsor, hwe⟩
        · rcases hd1 : DecodeF fuel (b :: rest') with e | ⟨kv, r⟩ <;>
            rw [hd1] at h <;> simp only [bind, Except.bind] at h
          · simp at h
          · cases kv with
            | str ks =>
              rcases hd2 : DecodeF fuel r with e | ⟨v1, r1⟩ <;>
                rw [hd2] at h <;> simp only [bind, Except.bind] at h
              · simp at h
              · refine ih3 r1 (mapSet acc ks v1) es rest ?_ ?_ h
                · exact keysSorted_mapSet ks v1 hsor
                · rw [wfEntries_iff]
                  intro e he
                  rcases mem_mapSet e he with he' | he'
                  · subst he'
                    exact ⟨ih1 _ _ _ hd1, ih1 _ _ _ hd2⟩
                  · exact (wfEntries_iff acc).mp hwe e he'
            | int i => simp at h
            | list its => simp at h
            | dict ds => simp at h

/-- Decoding with fuel `2·length + 2`, the wrappers. -/
theorem Decode_wf {input : List Nat} {v : BValue} {rest : List Nat}
    (h : Decode input = .ok (v, rest)) : wf v :=
  (decode_wf_aux _).1 input v rest h

theorem Decode_canonicalEnc (v : BValue) (h : wf v) (rest : List Nat) :
    Decode (canonicalEnc v ++ rest) = .ok (v, rest) := by
  unfold Decode
  apply DecodeF_canonical_aux (sizeOf v) v le_rfl h
  simp only [List.length_append]
  omega

theorem Decode_canonicalEnc_nil (v : BValue) (h : wf v) :
    Decode (canonicalEnc v) = .ok (v, []) := by
  have := Decode_canonicalEnc v h []
  rwa [List.append_nil] at this

theorem Decode_Encode (v : BValue) (h : wf v) : Decode (Encode v) = .ok (v, []) := by
  rw [Encode_eq_canonical v h]
  exact Decode_canonicalEnc_nil v h

/-! ## Metainfo model (`internal/torrent/torrent.go`)

`parseInfo` mirrors the Go parse of the `info` dictionary.  The Go type
switches accept `int` or `int64`; the decoder produces `int`, so both arms
collapse onto the `.int` constructor here. -/

/-- Smallest accepted `piece length` (16 KiB). -/
def MinPieceLength : Int := 16 * 1024

/-- Largest accepted `piece length` (1 MiB). -/
def MaxPieceLength : Int := 1024 * 1024

/-- Go `File` (the `md5sum` field is never read by the parser). -/
structure GoFile where
  length : Int
  path : List (List Nat)
deriving DecidableEq

/-- Go `InfoDictionary`.  `privateFlag` models the `Private *int` field; it
is only ever written by `parseMetainfo` from the top-level dictionary and is
never read by `GetInfohash`. -/
structure InfoDictionary where
  pieceLength : Int
  pieces : List Nat
  privateFlag : Option Int
  name : List Nat
  length : Int
  files : List GoFile
deriving DecidableEq

/-- Go `ValidatePieceLength`. -/
def ValidatePieceLength (pieceLength : Int) : Except GoErr Unit :=
  if pieceLength < MinPieceLength ∨ MaxPieceLength < pieceLength then
    .error .fieldErr
  else .ok ()

/-- Go `parseFile`'s path loop: every element must be a string. -/
def parsePathList : List BValue → Except GoErr (List (List Nat))
  | [] => .ok []
  | .str p :: tl =>
    match parsePathList tl with
    | .ok ps => .ok (p :: ps)
    | .error e => .error e
  | _ :: _ => .error .fieldErr

/-- Go `parseFile`: required `length` (int) and `path` (list of strings). -/
def parseFile (fileDict : BDict) : Except GoErr GoFile :=
  match mapGet fileDict (strBytes "length") with
  | some (.int n) =>
    match mapGet fileDict (strBytes "path") with
    | some (.list ps) =>
      match parsePathList ps with
      | .ok paths => .ok ⟨n, paths⟩
      | .error e => .error e
    | _ => .error .fieldErr
  | _ => .error .fieldErr

/-- Go `parseFiles`: every entry must be a dictionary. -/
def parseFiles : List BValue → Except GoErr (List GoFile)
  | [] => .ok []
  | .dict fd :: tl =>
    match parseFile fd with
    | .ok f =>
      match parseFiles tl with
      | .ok fs => .ok (f :: fs)
      | .error e => .error e
    | .error e => .error e
  | _ :: _ => .error .fieldErr

/-- Go `parseInfo`: `parseNameAndPieceLength`, then `ValidatePieceLength`,
then `parsePiecesField`, then `parseLengthOrFiles`, exactly in source
order.  Absent keys and wrong dynamic types take the error arms. -/
def parseInfo (infoDict : BDict) : Except GoErr InfoDictionary :=
  match mapGet infoDict (strBytes "name") with
  | some (.str name) =>
    match mapGet infoDict (strBytes "piece length") with
    | some (.int pl) =>
      match ValidatePieceLength pl with
      | .error e => .error e
      | .ok _ =>
        match mapGet infoDict (strBytes "pieces") with
        | some (.str pieces) =>
          match mapGet infoDict (strBytes "length") with
          | some (.int n) =>
            .ok ⟨pl, pieces, none, name, n, []⟩
          | _ =>
            match mapGet infoDict (strBytes "files") with
            | some (.list fs) =>
              match parseFiles fs with
              | .ok parsed => .ok ⟨pl, pieces, none, name, 0, parsed⟩
              | .error e => .error e
            | _ => .error .fieldErr
        | _ => .error .fieldErr
    | _ => .error .fieldErr
  | _ => .error .fieldErr

/-! ## Info-hash computation (`internal/torrent/tracker.go`, `GetInfohash`)

The Go function re-builds a fresh `map[string]interface` from the typed
fields — `name`, `piece length`, `pieces`, and `length` (single-file,
`info.Length > 0`) or `files` (otherwise) — encodes it, and hashes the
encoded bytes with SHA-1.  `GetInfohashBytes` is the byte string fed to
SHA-1; `GetInfohash` applies the hash function, kept as a parameter. -/

/-- The `fileMap` literal built for one file entry. -/
def fileToB (f : GoFile) : BValue :=
  .dict (mapSet (mapSet [] (strBytes "length") (.int f.length))
    (strBytes "path") (.list (f.path.map .str)))

/-- The bytes `GetInfohash` feeds to SHA-1: the encoding of the re-built
info map. -/
def GetInfohashBytes (info : InfoDictionary) : List Nat :=
  let m1 := mapSet [] (strBytes "name") (.str info.name)
  let m2 := mapSet m1 (strBytes "piece length") (.int info.pieceLength)
  let m3 := mapSet m2 (strBytes "pieces") (.str info.pieces)
  let m4 :=
    if 0 < info.length then mapSet m3 (strBytes "length") (.int info.length)
    else mapSet m3 (strBytes "files") (.list (info.files.map fileToB))
  Encode (.dict m4)

/-- Go `GetInfohash`: SHA-1 of the re-built info map's encoding.  SHA-1
itself is the parameter `sha1`. -/
def GetInfohash (sha1 : List Nat → List Nat) (info : InfoDictionary) : List Nat :=
  sha1 (GetInfohashBytes info)

/-! ## Piece manager (`internal/common/piece_manager.go`)

`map[int]*Piece` is an association list sorted by index (`pmSet` inserts in
order and overwrites, the canonical Go-map representation).  Each operation
below is one mutex-guarded Go method, modelled as a pure state transformer;
the mutex serialises calls, so a sequence of operations is exactly a
sequence of these transformers.  `VerifyPiece` re-enters `RequeuePiece` on
the third failure; the Go mutex is not re-entrant, so that call would
self-deadlock at runtime — the model gives the lock-free meaning of the
code.  `crypto/sha1` is the explicit `sha1` parameter. -/

/-- Go `Piece`.  `data` is the `Data *[]byte` pointer (`none` = `nil`);
`MarkPieceDownloaded` stores a by-value copy, as the source does. -/
structure GoPiece where
  hash : List Nat
  data : Option (List Nat)
  isDownloaded : Bool
  isClaimed : Bool
  failedAttempts : Int
deriving DecidableEq

/-- The `map[int]*Piece`, as an association list in first-insertion order.
No modelled method ever observes Go's (unspecified) map iteration order —
lookups go through `pmGet` and `IsDownloadComplete` only reads the size —
so update-or-append is a faithful representation of the map. -/
abbrev PMap := List (Int × GoPiece)

/-- Map assignment `pm.pieces[index] = piece`: overwrite the existing
binding or append a new one. -/
def pmSet (m : PMap) (k : Int) (p : GoPiece) : PMap :=
  match m with
  | [] => [(k, p)]
  | (k', p') :: tl =>
    if k = k' then (k, p) :: tl
    else (k', p') :: pmSet tl k p

/-- Map lookup `pm.pieces[index]`. -/
def pmGet (m : PMap) (k : Int) : Option GoPiece :=
  match m with
  | [] => none
  | (k', p') :: tl => if k = k' then some p' else pmGet tl k

/-- Go `PieceManager`. -/
structure PieceManager where
  pieces : PMap
  downloadedCount : Int
  PieceCount : Int
  PieceSize : Int
deriving DecidableEq

namespace PieceManager

/-- Go `NewPieceManager`. -/
def NewPieceManager (pieceCount pieceLength : Int) : PieceManager :=
  ⟨[], 0, pieceCount, pieceLength⟩

/-- Go `AddPiece`: a fresh `Unclaimed` record at `index`, overwriting any
existing entry (Go map assignment). -/
def AddPiece (pm : PieceManager) (index : Int) (hash : List Nat) : PieceManager :=
  { pm with pieces := pmSet pm.pieces index ⟨hash, none, false, false, 0⟩ }

/-- Go `RequeuePiece`: clear the flags and the data; decrement the counter
when the piece was downloaded.  `failedAttempts` is left untouched. -/
def RequeuePiece (pm : PieceManager) (index : Int) : PieceManager :=
  match pmGet pm.pieces index with
  | none => pm
  | some piece =>
    { pm with
      downloadedCount :=
        if piece.isDownloaded then pm.downloadedCount - 1 else pm.downloadedCount,
      pieces := pmSet pm.pieces index
        { piece with isDownloaded := false, isClaimed := false, data := none } }

/-- Go `ClaimPiece`: succeed only on an existing piece that is neither
downloaded nor claimed. -/
def ClaimPiece (pm : PieceManager) (index : Int) : Bool × PieceManager :=
  match pmGet pm.pieces index with
  | none => (false, pm)
  | some piece =>
    if !piece.isDownloaded && !piece.isClaimed then
      (true, { pm with pieces := pmSet pm.pieces index { piece with isClaimed := true } })
    else (false, pm)

/-- Go `MarkPieceDownloaded`: on an existing, not-yet-downloaded piece, copy
the data in, mark downloaded, release the claim, bump the counter. -/
def MarkPieceDownloaded (pm : PieceManager) (index : Int) (data : List Nat) :
    PieceManager :=
  match pmGet pm.pieces index with
  | none => pm
  | some piece =>
    if !piece.isDownloaded then
      { pm with
        pieces := pmSet pm.pieces index
          { piece with data := some data, isDownloaded := true, isClaimed := false },
        downloadedCount := pm.downloadedCount + 1 }
    else pm

/-- Go `VerifyPiece`: error when absent or not downloaded; on hash mismatch
increment `failedAttempts` and requeue at the third failure (the counter is
not reset there); on match reset the counter to zero. -/
def VerifyPiece (sha1 : List Nat → List Nat) (pm : PieceManager) (index : Int) :
    Except GoErr Unit × PieceManager :=
  match pmGet pm.pieces index with
  | none => (.error .fieldErr, pm)
  | some piece =>
    if !piece.isDownloaded || piece.data.isNone then (.error .fieldErr, pm)
    else
      let d := piece.data.getD []
      if sha1 d ≠ piece.hash then
        let piece' := { piece with failedAttempts := piece.failedAttempts + 1 }
        let pm1 := { pm with pieces := pmSet pm.pieces index piece' }
        if 3 ≤ piece'.failedAttempts then
          (.error .hashErr, RequeuePiece pm1 index)
        else (.error .hashErr, pm1)
      else
        (.ok (), { pm with pieces := pmSet pm.pieces index { piece with failedAttempts := 0 } })

/-- Go `IsDownloadComplete`: `downloadedCount == len(pm.pieces)`. -/
def IsDownloadComplete (pm : PieceManager) : Bool :=
  pm.downloadedCount = (pm.pieces.length : Int)

end PieceManager

/-- One call into the piece manager's public mutating API. -/
inductive PMOp where
  | addPiece (index : Int) (hash : List Nat)
  | claimPiece (index : Int)
  | markPieceDownloaded (index : Int) (data : List Nat)
  | requeuePiece (index : Int)
  | verifyPiece (index : Int)
deriving DecidableEq

/-- Apply one operation (the returned value, if any, is discarded). -/
def applyOp (sha1 : List Nat → List Nat) (pm : PieceManager) : PMOp → PieceManager
  | .addPiece i h => pm.AddPiece i h
  | .claimPiece i => (pm.ClaimPiece i).2
  | .markPieceDownloaded i d => pm.MarkPieceDownloaded i d
  | .requeuePiece i => pm.RequeuePiece i
  | .verifyPiece i => (PieceManager.VerifyPiece sha1 pm i).2

/-- Run a call sequence left to right. -/
def runOps (sha1 : List Nat → List Nat) (pm : PieceManager) : List PMOp → PieceManager
  | [] => pm
  | op :: rest => runOps sha1 (applyOp sha1 pm op) rest

/-- Along the run, `AddPiece` is only ever applied to an index that is not
yet present (the intended use: the manager is seeded once per piece). -/
def freshAdds (sha1 : List Nat → List Nat) (pm : PieceManager) : List PMOp → Bool
  | [] => true
  | op :: rest =>
    (match op with
      | .addPiece i _ => (pmGet pm.pieces i).isNone
      | _ => true) && freshAdds sha1 (applyOp sha1 pm op) rest

/-- Number of entries whose `isDownloaded` flag is set. -/
def countDownloaded (m : PMap) : Int :=
  ((m.filter (fun e => e.2.isDownloaded)).length : Int)

/-- All pieces downloaded, with their data present. -/
def allDownloaded (pm : PieceManager) : Bool :=
  pm.pieces.all fun e => e.2.isDownloaded && e.2.data.isSome

/-- All pieces hold data whose hash matches the expected hash (the state
the spec calls `Verified`). -/
def allVerified (sha1 : List Nat → List Nat) (pm : PieceManager) : Bool :=
  pm.pieces.all fun e =>
    match e.2.data with
    | some d => sha1 d = e.2.hash
    | none => false

/-! ### Piece-map lemmas -/

theorem pmGet_pmSet_self (m : PMap) (k : Int) (p : GoPiece) :
    pmGet (pmSet m k p) k = some p := by
  induction m with
  | nil => simp [pmSet, pmGet]
  | cons hd tl ih =>
    obtain ⟨k', p'⟩ := hd
    unfold pmSet
    split
    · next heq => subst heq; simp [pmGet]
    · next hne =>
      unfold pmGet
      rw [if_neg hne]
      exact ih

theorem pmGet_mem {m : PMap} {k : Int} {p : GoPiece} (h : pmGet m k = some p) :
    (k, p) ∈ m := by
  induction m with
  | nil => simp [pmGet] at h
  | cons hd tl ih =>
    obtain ⟨k', p'⟩ := hd
    unfold pmGet at h
    split at h
    · next heq =>
      rw [Option.some.injEq] at h
      subst heq
      subst h
      exact List.mem_cons_self _ _
    · exact List.mem_cons_of_mem _ (ih h)

theorem mem_pmSet {m : PMap} {k : Int} {p : GoPiece} :
    ∀ e ∈ pmSet m k p, e = (k, p) ∨ e ∈ m := by
  induction m with
  | nil => simp [pmSet]
  | cons hd tl ih =>
    intro e he
    obtain ⟨k', p'⟩ := hd
    unfold pmSet at he
    split at he
    · rw [List.mem_cons] at he
      rcases he with he | he
      · exact Or.inl he
      · exact Or.inr (List.mem_cons_of_mem _ he)
    · rw [List.mem_cons] at he
      rcases he with he | he
      · exact Or.inr (he ▸ List.mem_cons_self _ _)
      · rcases ih e he with h | h
        · exact Or.inl h
        · exact Or.inr (List.mem_cons_of_mem _ h)

theorem length_pmSet (m : PMap) (k : Int) (p : GoPiece) :
    (pmSet m k p).length =
      m.length + (match pmGet m k with | some _ => 0 | none => 1) := by
  induction m with
  | nil => simp [pmSet, pmGet]
  | cons hd tl ih =>
    obtain ⟨k', p'⟩ := hd
    unfold pmSet pmGet
    split
    · simp
    · simp only [List.length_cons, ih]
      omega

theorem countDownloaded_pmSet (m : PMap) (k : Int) (p : GoPiece) :
    countDownloaded (pmSet m k p) =
      countDownloaded m + (if p.isDownloaded then 1 else 0) -
        (match pmGet m k with
          | some q => if q.isDownloaded then 1 else 0
          | none => 0) := by
  induction m with
  | nil =>
    unfold pmSet pmGet countDownloaded
    simp only [List.filter]
    split
    · next hp => simp [List.filter, hp]
    · next hp => simp [List.filter, hp]
  | cons hd tl ih =>
    obtain ⟨k', p'⟩ := hd
    unfold pmSet pmGet
    split
    · next heq =>
      subst heq
      show countDownloaded ((k, p) :: tl) =
        countDownloaded ((k, p') :: tl) + _ - _
      unfold countDownloaded
      simp only [List.filter_cons]
      by_cases hp : p.isDownloaded = true <;>
        by_cases hp' : p'.isDownloaded = true <;>
          simp only [hp, hp', if_true, if_false, List.length_cons] <;>
            push_cast <;> omega
    · next hne =>
      show countDownloaded ((k', p') :: pmSet tl k p) =
        countDownloaded ((k', p') :: tl) + _ - _
      rcases hg : pmGet tl k with _ | q <;> rw [hg] at ih
      · unfold countDownloaded at ih ⊢
        simp only [List.filter_cons]
        by_cases hp' : p'.isDownloaded = true <;>
          simp only [hp', if_true, if_false, List.length_cons] <;>
            push_cast at ih ⊢ <;> omega
      · unfold countDownloaded at ih ⊢
        simp only [List.filter_cons]
        by_cases hp' : p'.isDownloaded = true <;>
          simp only [hp', if_true, if_false, List.length_cons] <;>
            push_cast at ih ⊢ <;> omega

/-- The piece-manager invariant backing the completion claims: the running
counter equals the number of downloaded entries, and every downloaded entry
holds data. -/
def pmInv (pm : PieceManager) : Prop :=
  pm.downloadedCount = countDownloaded pm.pieces ∧
  ∀ e ∈ pm.pieces, e.2.isDownloaded = true → e.2.data.isSome = true

theorem pmInv_set {pm : PieceManager} {k : Int} {piece : GoPiece}
    (h : pmInv pm) (hget : pmGet pm.pieces k = some piece) (p' : GoPiece)
    (hdown : p'.isDownloaded = piece.isDownloaded)
    (hdata : p'.isDownloaded = true → p'.data.isSome = true) :
    pmInv { pm with pieces := pmSet pm.pieces k p' } := by
  obtain ⟨hc, hd⟩ := h
  constructor
  · show pm.downloadedCount = countDownloaded (pmSet pm.pieces k p')
    rw [countDownloaded_pmSet]
    simp only [hget, hdown, hc]
    by_cases hp : piece.isDownloaded = true <;> simp [hp]
  · intro e he
    rcases mem_pmSet e he with rfl | he'
    · exact hdata
    · exact hd e he'

theorem pmInv_RequeuePiece (pm : PieceManager) (idx : Int) (h : pmInv pm) :
    pmInv (pm.RequeuePiece idx) := by
  unfold PieceManager.RequeuePiece
  rcases hg : pmGet pm.pieces idx with _ | piece
  · exact h
  · obtain ⟨hc, hd⟩ := h
    constructor
    · show (if piece.isDownloaded then pm.downloadedCount - 1 else pm.downloadedCount) =
        countDownloaded (pmSet pm.pieces idx
          { piece with isDownloaded := false, isClaimed := false, data := none })
      rw [countDownloaded_pmSet]
      simp only [hg, hc]
      by_cases hp : piece.isDownloaded = true <;> simp [hp]
    · intro e he
      rcases mem_pmSet e he with rfl | he'
      · intro hcon
        simp at hcon
      · exact hd e he'

theorem pmInv_AddPiece (pm : PieceManager) (idx : Int) (hash : List Nat)
    (hfresh : pmGet pm.pieces idx = none) (h : pmInv pm) :
    pmInv (pm.AddPiece idx hash) := by
  obtain ⟨hc, hd⟩ := h
  constructor
  · show pm.downloadedCount = countDownloaded (pmSet pm.pieces idx _)
    rw [countDownloaded_pmSet]
    simp only [hfresh, hc]
    simp
  · intro e he
    rcases mem_pmSet e he with rfl | he'
    · intro hcon
      simp at hcon
    · exact hd e he'

theorem pmInv_ClaimPiece (pm : PieceManager) (idx : Int) (h : pmInv pm) :
    pmInv (pm.ClaimPiece idx).2 := by
  unfold PieceManager.ClaimPiece
  rcases hg : pmGet pm.pieces idx with _ | piece
  · exact h
  · dsimp only
    by_cases hcond : (!piece.isDownloaded && !piece.isClaimed) = true
    · rw [if_pos hcond]
      exact pmInv_set h hg _ rfl (fun hdn => h.2 (idx, piece) (pmGet_mem hg) hdn)
    · rw [if_neg hcond]
      exact h

theorem pmInv_MarkPieceDownloaded (pm : PieceManager) (idx : Int) (data : List Nat)
    (h : pmInv pm) : pmInv (pm.MarkPieceDownloaded idx data) := by
  unfold PieceManager.MarkPieceDownloaded
  rcases hg : pmGet pm.pieces idx with _ | piece
  · exact h
  · dsimp only
    by_cases hdn : (!piece.isDownloaded) = true
    · rw [if_pos hdn]
      obtain ⟨hc, hd⟩ := h
      constructor
      · show pm.downloadedCount + 1 = countDownloaded (pmSet pm.pieces idx _)
        rw [countDownloaded_pmSet]
        simp only [hg, hc]
        simp only [Bool.not_eq_eq_eq_not, Bool.not_true] at hdn
        simp [hdn]
      · intro e he
        rcases mem_pmSet e he with rfl | he'
        · intro _
          simp
        · exact hd e he'
    · rw [if_neg hdn]
      exact h

theorem pmInv_VerifyPiece (sha1 : List Nat → List Nat) (pm : PieceManager)
    (idx : Int) (h : pmInv pm) : pmInv (PieceManager.VerifyPiece sha1 pm idx).2 := by
  unfold PieceManager.VerifyPiece
  rcases hg : pmGet pm.pieces idx with _ | piece
  · exact h
  · dsimp only
    by_cases herr : (!piece.isDownloaded || piece.data.isNone) = true
    · rw [if_pos herr]
      exact h
    · rw [if_neg herr]
      have hdata : piece.isDownloaded = true → piece.data.isSome = true :=
        h.2 (idx, piece) (pmGet_mem hg)
      by_cases hmis : sha1 (piece.data.getD []) ≠ piece.hash
      · rw [if_pos hmis]
        by_cases hth : (3 : Int) ≤ piece.failedAttempts + 1
        · rw [if_pos hth]
          exact pmInv_RequeuePiece _ idx (pmInv_set h hg _ rfl hdata)
        · rw [if_neg hth]
          exact pmInv_set h hg _ rfl hdata
      · rw [if_neg hmis]
        exact pmInv_set h hg _ rfl hdata

theorem pmInv_applyOp (sha1 : List Nat → List Nat) (pm : PieceManager) (op : PMOp)
    (hfresh : (match op with
      | .addPiece i _ => (pmGet pm.pieces i).isNone
      | _ => true) = true)
    (h : pmInv pm) : pmInv (applyOp sha1 pm op) := by
  cases op with
  | addPiece i hs =>
    simp only [Option.isNone_iff_eq_none] at hfresh
    exact pmInv_AddPiece pm i hs hfresh h
  | claimPiece i => exact pmInv_ClaimPiece pm i h
  | markPieceDownloaded i d => exact pmInv_MarkPieceDownloaded pm i d h
  | requeuePiece i => exact pmInv_RequeuePiece pm i h
  | verifyPiece i => exact pmInv_VerifyPiece sha1 pm i h

theorem pmInv_runOps (sha1 : List Nat → List Nat) :
    ∀ ops pm, pmInv pm → freshAdds sha1 pm ops = true →
      pmInv (runOps sha1 pm ops) := by
  intro ops
  induction ops with
  | nil => intro pm h _; exact h
  | cons op rest ih =>
    intro pm h hfresh
    unfold freshAdds at hfresh
    rw [Bool.and_eq_true] at hfresh
    exact ih _ (pmInv_applyOp sha1 pm op hfresh.1 h) hfresh.2

theorem pmInv_new (pc ps : Int) : pmInv (PieceManager.NewPieceManager pc ps) := by
  constructor
  · rfl
  · intro e he
    simp [PieceManager.NewPieceManager] at he

/-- When the counter equals the map size and the invariant holds, every
piece is downloaded and its data is present. -/
theorem complete_implies_allDownloaded (pm : PieceManager) (h : pmInv pm)
    (hc : pm.IsDownloadComplete = true) : allDownloaded pm = true := by
  obtain ⟨hcount, hdata⟩ := h
  unfold PieceManager.IsDownloadComplete at hc
  rw [decide_eq_true_eq] at hc
  have hlen : (pm.pieces.filter (fun e => e.2.isDownloaded)).length = pm.pieces.length := by
    unfold countDownloaded at hcount
    omega
  have hall : ∀ e ∈ pm.pieces, e.2.isDownloaded = true :=
    List.filter_eq_self.mp ((List.filter_sublist pm.pieces).eq_of_length hlen)
  unfold allDownloaded
  rw [List.all_eq_true]
  intro e he
  rw [Bool.and_eq_true]
  exact ⟨hall e he, hdata e he (hall e he)⟩

/-! ### The verify-failure path -/

theorem VerifyPiece_fail_low {sha1 : List Nat → List Nat} {pm : PieceManager}
    {idx : Int} {piece : GoPiece} {d : List Nat}
    (hg : pmGet pm.pieces idx = some piece)
    (hdn : piece.isDownloaded = true) (hdat : piece.data = some d)
    (hmis : ¬ (sha1 d = piece.hash)) (hlt : piece.failedAttempts + 1 < 3) :
    (PieceManager.VerifyPiece sha1 pm idx).2 =
      { pm with pieces := (pmSet pm.pieces idx
          { piece with failedAttempts := piece.failedAttempts + 1 }) } := by
  unfold PieceManager.VerifyPiece
  rw [hg]
  dsimp only
  rw [if_neg (by simp [hdn, hdat]), hdat]
  simp only [Option.getD_some]
  rw [if_pos (by simpa using hmis), if_neg (by omega)]

theorem VerifyPiece_fail_requeue {sha1 : List Nat → List Nat} {pm : PieceManager}
    {idx : Int} {piece : GoPiece} {d : List Nat}
    (hg : pmGet pm.pieces idx = some piece)
    (hdn : piece.isDownloaded = true) (hdat : piece.data = some d)
    (hmis : ¬ (sha1 d = piece.hash)) (hge : 3 ≤ piece.failedAttempts + 1) :
    (PieceManager.VerifyPiece sha1 pm idx).2 =
      PieceManager.RequeuePiece
        { pm with pieces := (pmSet pm.pieces idx
            { piece with failedAttempts := piece.failedAttempts + 1 }) } idx := by
  unfold PieceManager.VerifyPiece
  rw [hg]
  dsimp only
  rw [if_neg (by simp [hdn, hdat]), hdat]
  simp only [Option.getD_some]
  rw [if_pos (by simpa using hmis), if_pos (by omega)]

/-- After three failing `VerifyPiece` calls on a downloaded piece whose
counter starts at zero, the entry is back to `Unclaimed` — flags cleared,
data gone — but `failedAttempts` is 3, not 0. -/
theorem verify_three_fails (sha1 : List Nat → List Nat) (pm : PieceManager)
    (idx : Int) (piece : GoPiece) (d : List Nat)
    (hg : pmGet pm.pieces idx = some piece)
    (hdn : piece.isDownloaded = true) (hdat : piece.data = some d)
    (hmis : ¬ (sha1 d = piece.hash)) (h0 : piece.failedAttempts = 0) :
    pmGet ((PieceManager.VerifyPiece sha1
        (PieceManager.VerifyPiece sha1
          (PieceManager.VerifyPiece sha1 pm idx).2 idx).2 idx).2).pieces idx =
      some ⟨piece.hash, none, false, false, 3⟩ := by
  have h1 := @VerifyPiece_fail_low sha1 pm idx piece d hg hdn hdat hmis (by omega)
  rw [h1]
  have hg1 := pmGet_pmSet_self pm.pieces idx
    ({ piece with failedAttempts := piece.failedAttempts + 1 })
  have h2 := @VerifyPiece_fail_low sha1
    { pm with pieces := (pmSet pm.pieces idx
        { piece with failedAttempts := piece.failedAttempts + 1 }) } idx
    ({ piece with failedAttempts := piece.failedAttempts + 1 }) d hg1 hdn hdat hmis
    (by show piece.failedAttempts + 1 + 1 < 3; omega)
  rw [h2]
  have hg2 := pmGet_pmSet_self
    (pmSet pm.pieces idx ({ piece with failedAttempts := piece.failedAttempts + 1 }))
    idx ({ piece with failedAttempts := piece.failedAttempts + 1 + 1 })
  have h3 := @VerifyPiece_fail_requeue sha1
    { pm with pieces := (pmSet
        (pmSet pm.pieces idx { piece with failedAttempts := piece.failedAttempts + 1 })
        idx { piece with failedAttempts := piece.failedAttempts + 1 + 1 }) } idx
    ({ piece with failedAttempts := piece.failedAttempts + 1 + 1 }) d hg2 hdn hdat hmis
    (by show (3 : Int) ≤ piece.failedAttempts + 1 + 1 + 1; omega)
  rw [h3]
  unfold PieceManager.RequeuePiece
  rw [pmGet_pmSet_self]
  dsimp only
  rw [pmGet_pmSet_self]
  rw [h0]
  norm_num

/-! ## Peer wire handshake (`internal/peers/messages.go`) -/

/-- ASCII bytes of `"BitTorrent protocol"`. -/
def PROTOCOL_STRING : List Nat := strBytes "BitTorrent protocol"

/-- `byte(len(PROTOCOL_STRING))` = 19. -/
def PROTOCOL_LENGTH : Nat := 19

/-- Go `Handshake`. -/
structure Handshake where
  protocolStringLen : Nat
  protocolString : List Nat
  reserved : List Nat
  infoHash : List Nat
  peerId : List Nat
deriving DecidableEq

/-- Go `(*Handshake).Serialize`: length byte, protocol string, reserved,
info-hash, peer-id, in that order. -/
def Handshake.Serialize (h : Handshake) : List Nat :=
  h.protocolStringLen :: h.protocolString ++ h.reserved ++ h.infoHash ++ h.peerId

/-- Go `CreateHandshake`: 20-byte inputs required, reserved bytes all zero. -/
def CreateHandshake (infoHash clientID : List Nat) : Except GoErr (List Nat) :=
  if infoHash.length ≠ 20 then .error .lenErr
  else if clientID.length ≠ 20 then .error .lenErr
  else .ok (Handshake.Serialize
    ⟨PROTOCOL_LENGTH, PROTOCOL_STRING, List.replicate 8 0, infoHash, clientID⟩)

/-- Go `ValidateHandshakeResponse`: reject short responses, then compare
`response[1:20]` against the protocol string and `response[28:48]` against
the expected info-hash.  The length byte `response[0]`, the reserved bytes
and the peer-id are never examined. -/
def ValidateHandshakeResponse (response : List Nat) (expectedInfoHash : List Nat) :
    Except GoErr Unit :=
  if response.length < 68 then .error .lenErr
  else if (response.drop 1).take 19 ≠ PROTOCOL_STRING then .error .protoErr
  else if (response.drop 28).take 20 ≠ expectedInfoHash then .error .hashErr
  else .ok ()

/-! ## Peer state (`internal/peers/peers.go`) -/

/-- The four-boolean per-peer state. -/
structure PeerState where
  am_choking : Bool
  am_interested : Bool
  peer_choking : Bool
  peer_interested : Bool
deriving DecidableEq

/-- Go `Peer`. -/
structure Peer where
  peer_state : PeerState
deriving DecidableEq

/-- Go `CreatePeerConn`: both sides choking, neither interested. -/
def CreatePeerConn : Peer := ⟨⟨true, false, true, false⟩⟩

/-- Go `CanDownload`, verbatim:
`peer.peer_state.am_interested && peer.peer_state.peer_choking`. -/
def CanDownload (peer : Peer) : Bool :=
  peer.peer_state.am_interested && peer.peer_state.peer_choking

/-- Go `UpdatePeerState`: record the peer's interest and choking, and
choke back exactly when the peer is not interested. -/
def UpdatePeerState (peer : Peer) (receivedInterested receivedChoking : Bool) : Peer :=
  ⟨⟨!receivedInterested, peer.peer_state.am_interested,
    receivedChoking, receivedInterested⟩⟩

/-! ## Compact peer lists (`internal/peers/extract_peers.go`) -/

/-- ASCII `.`. -/
def dotByte : Nat := 46

/-- `net.IP.String()` on a 4-byte address: the dotted decimal quad. -/
def ipDotted (b0 b1 b2 b3 : Nat) : List Nat :=
  natDecimal b0 ++ dotByte :: natDecimal b1 ++ dotByte :: natDecimal b2 ++
    dotByte :: natDecimal b3

/-- One `fmt.Sprintf("%s:%d", ip, port)` entry: the dotted quad, a colon,
and the big-endian 16-bit port `b4<<8 + b5` in decimal. -/
def peerString (b0 b1 b2 b3 b4 b5 : Nat) : List Nat :=
  ipDotted b0 b1 b2 b3 ++ colonByte :: natDecimal (b4 * 256 + b5)

/-- The `i += 6` loop body of `parseCompactPeers`. -/
def compactGroups : List Nat → List (List Nat)
  | b0 :: b1 :: b2 :: b3 :: b4 :: b5 :: rest =>
    peerString b0 b1 b2 b3 b4 b5 :: compactGroups rest
  | _ => []

/-- Go `parseCompactPeers`: reject lengths that are not a multiple of six,
else one `host:port` string per 6-byte group. -/
def parseCompactPeers (peers : List Nat) : Except GoErr (List (List Nat)) :=
  if peers.length % 6 ≠ 0 then .error .lenErr
  else .ok (compactGroups peers)

/-! ## Tracker list (`internal/torrent/tracker.go`, `GatherTrackers`)

`net/url.Parse` is modelled by its `getScheme` phase: the scheme is the
(lower-cased) prefix before the first `:` when it is a letter followed by
letters, digits, `+`, `-`, `.`; the remainder of the URL is kept verbatim
and `URL.String()` re-attaches the scheme.  Tracker URLs carry no fragment
and need none of Go's further normalisation, which this model omits. -/

/-- Go `GoURL`: the parsed scheme and the remainder, kept verbatim. -/
structure GoURL where
  scheme : String
  rest : String
deriving DecidableEq

/-- A letter, per `net/url.getScheme`. -/
def isAlphaChar (c : Char) : Bool :=
  ('a' ≤ c && c ≤ 'z') || ('A' ≤ c && c ≤ 'Z')

/-- A digit or `+`, `-`, `.`, per `net/url.getScheme`. -/
def isSchemeExtra (c : Char) : Bool :=
  ('0' ≤ c && c ≤ '9') || c = '+' || c = '-' || c = '.'

/-- The scan of `net/url.getScheme`: `acc` holds the scheme candidate read
so far; an empty candidate at `:` is the `missing protocol scheme` error;
an invalid character or the end of the string means no scheme. -/
def getSchemeLoop (orig : List Char) : List Char → List Char →
    Except GoErr (List Char × List Char)
  | _, [] => .ok ([], orig)
  | acc, c :: tl =>
    if isAlphaChar c then getSchemeLoop orig (acc ++ [c]) tl
    else if isSchemeExtra c then
      if acc.isEmpty then .ok ([], orig) else getSchemeLoop orig (acc ++ [c]) tl
    else if c = ':' then
      if acc.isEmpty then .error .fieldErr else .ok (acc, tl)
    else .ok ([], orig)

/-- `net/url.Parse`, restricted to scheme extraction; the scheme is
lower-cased as in the source. -/
def urlParse (s : String) : Except GoErr GoURL :=
  match getSchemeLoop s.toList [] s.toList with
  | .error e => .error e
  | .ok (sch, rest) => .ok ⟨(String.mk sch).toLower, String.mk rest⟩

/-- `URL.String()`: re-attach the scheme when present. -/
def urlString (u : GoURL) : String :=
  if u.scheme ≠ "" then u.scheme ++ ":" ++ u.rest else u.rest

/-- The metainfo fields read by `GatherTrackers`. -/
structure Torrent where
  Announce : String
  AnnounceList : List (List String)
deriving DecidableEq

/-- Go `GatherTrackers`: seed the slice with the announce URL, append every
parseable non-UDP URL of every tier, and return `trackers[1:]`. -/
def GatherTrackers (torrentFile : Torrent) : List String :=
  let trackers := torrentFile.AnnounceList.foldl (fun acc tier =>
    tier.foldl (fun acc t =>
      match urlParse t with
      | .ok tURL => if tURL.scheme ≠ "udp" then acc ++ [urlString tURL] else acc
      | .error _ => acc) acc) [torrentFile.Announce]
  trackers.drop 1

/-- The per-URL effect of `GatherTrackers`' inner loop. -/
def trackerFilter (t : String) : Option String :=
  match urlParse t with
  | .ok tURL => if tURL.scheme ≠ "udp" then some (urlString tURL) else none
  | .error _ => none

theorem foldl_tier (tier : List String) : ∀ acc : List String,
    tier.foldl (fun acc t =>
      match urlParse t with
      | .ok tURL => if tURL.scheme ≠ "udp" then acc ++ [urlString tURL] else acc
      | .error _ => acc) acc = acc ++ tier.filterMap trackerFilter := by
  induction tier with
  | nil => intro acc; simp
  | cons t tl ih =>
    intro acc
    simp only [List.foldl_cons, List.filterMap_cons, trackerFilter]
    rcases h : urlParse t with e | u
    · rw [ih]
    · by_cases hs : u.scheme = "udp"
      · simp only [ne_eq, hs, not_true_eq_false, ite_false]
        rw [ih]
      · simp only [ne_eq, hs, not_false_eq_true, ite_true]
        rw [ih]
        simp

theorem GatherTrackers_eq (t : Torrent) :
    GatherTrackers t = t.AnnounceList.flatten.filterMap trackerFilter := by
  unfold GatherTrackers
  have houter : ∀ tiers : List (List String), ∀ acc : List String,
      tiers.foldl (fun acc tier =>
        tier.foldl (fun acc t =>
          match urlParse t with
          | .ok tURL => if tURL.scheme ≠ "udp" then acc ++ [urlString tURL] else acc
          | .error _ => acc) acc) acc =
        acc ++ tiers.flatten.filterMap trackerFilter := by
    intro tiers
    induction tiers with
    | nil => intro acc; simp
    | cons tier tiers ih =>
      intro acc
      simp only [List.foldl_cons, List.flatten_cons, List.filterMap_append]
      rw [foldl_tier, ih, List.append_assoc]
  rw [houter]
  simp

/-! # The claims -/

/-- C9 (counterexample): the decoder does not reject integers with leading
zeros — `decode("i03e")` succeeds with the value 3, where the claim
requires a `BencodeDecodeError`. -/
theorem C9_leading_zero_counterexample :
    Decode (strBytes "i03e") = .ok (.int 3, []) := by
  rfl

/-- C9 (amended): the decoder parses the integer token with `strconv.Atoi`
semantics, so `i03e` decodes to 3 and `i-0e` decodes to 0 rather than being
rejected; negative integers such as `i-42e` decode successfully. -/
theorem C9_integer_tokens_amended :
    Decode (strBytes "i03e") = .ok (.int 3, []) ∧
    Decode (strBytes "i-0e") = .ok (.int 0, []) ∧
    Decode (strBytes "i-42e") = .ok (.int (-42), []) := by
  refine ⟨rfl, rfl, rfl⟩

/-- C2: the bencode round-trip.  First, any value the decoder produces
re-encodes to bytes that decode back to exactly that value.  Second, a
canonically encoded byte string — the canonical bencoding `canonicalEnc v`
of a well-formed value — decodes to that value and the encoder reproduces
its bytes, i.e. `encode (decode b) = b`. -/
theorem C2_bencode_roundtrip :
    (∀ b v rest, Decode b = .ok (v, rest) → Decode (Encode v) = .ok (v, [])) ∧
    (∀ v, wf v →
      Decode (canonicalEnc v) = .ok (v, []) ∧ Encode v = canonicalEnc v) := by
  constructor
  · intro b v rest h
    exact Decode_Encode v (Decode_wf h)
  · intro v hv
    exact ⟨Decode_canonicalEnc_nil v hv, Encode_eq_canonical v hv⟩

/-- C2 witness: the round-trip at the spec's own example
`d3:cow3:moo4:spam4:eggse`. -/
theorem C2_bencode_roundtrip_witness :
    Decode (Encode (.dict [(strBytes "cow", .str (strBytes "moo")),
      (strBytes "spam", .str (strBytes "eggs"))])) =
      .ok (.dict [(strBytes "cow", .str (strBytes "moo")),
        (strBytes "spam", .str (strBytes "eggs"))], []) ∧
    Encode (.dict [(strBytes "cow", .str (strBytes "moo")),
      (strBytes "spam", .str (strBytes "eggs"))]) =
      canonicalEnc (.dict [(strBytes "cow", .str (strBytes "moo")),
        (strBytes "spam", .str (strBytes "eggs"))]) := by
  have hwf : wf (.dict [(strBytes "cow", .str (strBytes "moo")),
      (strBytes "spam", .str (strBytes "eggs"))]) := by
    refine ⟨by decide, ?_⟩
    refine ⟨by decide, ?_, by decide, ?_, trivial⟩
    · show ((strBytes "moo").length : Int) ≤ goMaxInt
      decide
    · show ((strBytes "eggs").length : Int) ≤ goMaxInt
      decide
  exact ⟨C2_bencode_roundtrip.1 (strBytes "d3:cow3:moo4:spam4:eggse") _ [] (by rfl),
    (C2_bencode_roundtrip.2 _ hwf).2⟩

/-- C1 (counterexample): for a decoded info mapping that carries the
optional `private` key, the bytes `GetInfohash` feeds to SHA-1 differ from
the canonical bencoding of the info sub-tree: the re-built map silently
drops `private`. -/
theorem C1_private_dropped_counterexample :
    parseInfo [(strBytes "length", .int 1), (strBytes "name", .str (strBytes "a")),
        (strBytes "piece length", .int 16384),
        (strBytes "pieces", .str (List.replicate 20 0)),
        (strBytes "private", .int 1)] =
      .ok ⟨16384, List.replicate 20 0, none, strBytes "a", 1, []⟩ ∧
    GetInfohashBytes ⟨16384, List.replicate 20 0, none, strBytes "a", 1, []⟩ ≠
      canonicalEnc (.dict [(strBytes "length", .int 1),
        (strBytes "name", .str (strBytes "a")),
        (strBytes "piece length", .int 16384),
        (strBytes "pieces", .str (List.replicate 20 0)),
        (strBytes "private", .int 1)]) := by
  constructor
  · rfl
  · decide

/-- C1 (amended): for a decoded single-file info mapping holding exactly
the keys the re-build reproduces — `length` (positive), `name`,
`piece length`, `pieces` — the bytes fed to SHA-1 by `GetInfohash`'s
re-built map are identical to the canonical bencoding of the decoded info
sub-mapping, and hence the info-hash is the SHA-1 of that canonical
bencoding.  (The counterexample shows this fails once extra optional keys
such as `private` are present.) -/
theorem C1_infohash_rebuild_amended (n pl : Int) (name ps : List Nat)
    (info : InfoDictionary)
    (hparse : parseInfo [(strBytes "length", .int n), (strBytes "name", .str name),
      (strBytes "piece length", .int pl), (strBytes "pieces", .str ps)] = .ok info)
    (hn : 0 < n) :
    GetInfohashBytes info =
      canonicalEnc (.dict [(strBytes "length", .int n), (strBytes "name", .str name),
        (strBytes "piece length", .int pl), (strBytes "pieces", .str ps)]) ∧
    ∀ sha1 : List Nat → List Nat,
      GetInfohash sha1 info =
        sha1 (canonicalEnc (.dict [(strBytes "length", .int n),
          (strBytes "name", .str name), (strBytes "piece length", .int pl),
          (strBytes "pieces", .str ps)])) := by
  have hbytes : GetInfohashBytes info =
      canonicalEnc (.dict [(strBytes "length", .int n), (strBytes "name", .str name),
        (strBytes "piece length", .int pl), (strBytes "pieces", .str ps)]) := by
    unfold parseInfo at hparse
    rw [show mapGet [(strBytes "length", BValue.int n), (strBytes "name", BValue.str name),
        (strBytes "piece length", BValue.int pl), (strBytes "pieces", BValue.str ps)]
        (strBytes "name") = some (.str name) from rfl] at hparse
    dsimp only at hparse
    rw [show mapGet [(strBytes "length", BValue.int n), (strBytes "name", BValue.str name),
        (strBytes "piece length", BValue.int pl), (strBytes "pieces", BValue.str ps)]
        (strBytes "piece length") = some (.int pl) from rfl] at hparse
    dsimp only at hparse
    rcases hvp : ValidatePieceLength pl with e | u <;> rw [hvp] at hparse
    · simp at hparse
    · dsimp only at hparse
      rw [show mapGet [(strBytes "length", BValue.int n), (strBytes "name", BValue.str name),
          (strBytes "piece length", BValue.int pl), (strBytes "pieces", BValue.str ps)]
          (strBytes "pieces") = some (.str ps) from rfl] at hparse
      dsimp only at hparse
      rw [show mapGet [(strBytes "length", BValue.int n), (strBytes "name", BValue.str name),
          (strBytes "piece length", BValue.int pl), (strBytes "pieces", BValue.str ps)]
          (strBytes "length") = some (.int n) from rfl] at hparse
      dsimp only at hparse
      rw [Except.ok.injEq] at hparse
      subst hparse
      simp only [GetInfohashBytes]
      rw [if_pos hn]
      show Encode (.dict [(strBytes "length", .int n), (strBytes "name", .str name),
        (strBytes "piece length", .int pl), (strBytes "pieces", .str ps)]) = _
      have hbind : keysSorted (EncodeBindings
          [(strBytes "length", BValue.int n), (strBytes "name", BValue.str name),
            (strBytes "piece length", BValue.int pl), (strBytes "pieces", BValue.str ps)]) := by
        unfold keysSorted
        rw [keyList_EncodeBindings]
        simp only [List.map_cons, List.map_nil]
        decide
      unfold Encode
      rw [sortPairs_sorted_id _ hbind]
      rfl
  exact ⟨hbytes, fun sha1 => by unfold GetInfohash; rw [hbytes]⟩

/-- C1 witness: the amended theorem at the spec's concrete info dictionary
`d6:lengthi6e4:name4:file12:piece lengthi262144e6:pieces20:(20 zero bytes)e`. -/
theorem C1_infohash_rebuild_witness :
    GetInfohashBytes ⟨262144, List.replicate 20 0, none, strBytes "file", 6, []⟩ =
      canonicalEnc (.dict [(strBytes "length", .int 6),
        (strBytes "name", .str (strBytes "file")),
        (strBytes "piece length", .int 262144),
        (strBytes "pieces", .str (List.replicate 20 0))]) :=
  (C1_infohash_rebuild_amended 6 262144 (strBytes "file") (List.replicate 20 0)
    ⟨262144, List.replicate 20 0, none, strBytes "file", 6, []⟩ (by rfl) (by decide)).1

/-- C3 (counterexample): a reachable state — `AddPiece`, `ClaimPiece`,
`MarkPieceDownloaded` with data whose hash does not match — in which
`IsDownloadComplete` returns `true` while the piece is merely downloaded
and unverified (its stored hash `[1]` differs from the hash `[0]` of its
data).  The hash function is the model's stand-in for SHA-1; no `VerifyPiece`
call occurs, so the run is independent of the hash function. -/
theorem C3_complete_unverified_counterexample :
    PieceManager.IsDownloadComplete (runOps (fun _ => [0])
      (PieceManager.NewPieceManager 1 16384)
      [.addPiece 0 [1], .claimPiece 0, .markPieceDownloaded 0 []]) = true ∧
    allVerified (fun _ => [0]) (runOps (fun _ => [0])
      (PieceManager.NewPieceManager 1 16384)
      [.addPiece 0 [1], .claimPiece 0, .markPieceDownloaded 0 []]) = false := by
  constructor
  · rfl
  · rfl

/-- C3 (amended): over every run whose `AddPiece` calls only seed fresh
indices, completion (`IsDownloadComplete = true`) implies every piece is
*downloaded* with its data present; verification is not required for
completion, since the counter is incremented by `MarkPieceDownloaded`. -/
theorem C3_complete_implies_downloaded_amended (sha1 : List Nat → List Nat)
    (pc ps : Int) (ops : List PMOp)
    (hfresh : freshAdds sha1 (PieceManager.NewPieceManager pc ps) ops = true)
    (hc : (runOps sha1 (PieceManager.NewPieceManager pc ps) ops).IsDownloadComplete = true) :
    allDownloaded (runOps sha1 (PieceManager.NewPieceManager pc ps) ops) = true :=
  complete_implies_allDownloaded _
    (pmInv_runOps sha1 ops _ (pmInv_new pc ps) hfresh) hc

/-- C3 witness: the amended theorem at a concrete completed run. -/
theorem C3_complete_implies_downloaded_witness :
    allDownloaded (runOps (fun _ => [0]) (PieceManager.NewPieceManager 1 16384)
      [.addPiece 0 [1], .claimPiece 0, .markPieceDownloaded 0 [7]]) = true :=
  C3_complete_implies_downloaded_amended (fun _ => [0]) 1 16384
    [.addPiece 0 [1], .claimPiece 0, .markPieceDownloaded 0 [7]]
    (by rfl) (by rfl)

/-- C4 (counterexample): after `MAX_FAILED` = 3 failing `VerifyPiece` calls
the piece is indeed unclaimed, not downloaded and its data cleared, but
`failedAttempts` is 3, not 0 — `RequeuePiece` never resets the counter. -/
theorem C4_failed_attempts_counterexample :
    pmGet (runOps (fun _ => [0]) (PieceManager.NewPieceManager 1 16384)
      [.addPiece 0 [1], .claimPiece 0, .markPieceDownloaded 0 [],
        .verifyPiece 0, .verifyPiece 0, .verifyPiece 0]).pieces 0 =
      some ⟨[1], none, false, false, 3⟩ ∧ (3 : Int) ≠ 0 := by
  constructor
  · rfl
  · decide

/-- C4 (amended): after three `VerifyPiece` calls that each fail the hash
comparison on a downloaded piece whose counter starts at zero, the piece is
back in the `Unclaimed` state — not downloaded, not claimed, data cleared —
and its `failedAttempts` counter is 3 (`MAX_FAILED`), not 0; the counter is
only reset by a later successful verification.  (The Go code reaches this
state only under the lock-free reading: `VerifyPiece` calls `RequeuePiece`
while already holding the manager's mutex.) -/
theorem C4_verify_failure_requeue_amended (sha1 : List Nat → List Nat)
    (pm : PieceManager) (idx : Int) (piece : GoPiece) (d : List Nat)
    (hg : pmGet pm.pieces idx = some piece)
    (hdn : piece.isDownloaded = true) (hdat : piece.data = some d)
    (hmis : ¬ (sha1 d = piece.hash)) (h0 : piece.failedAttempts = 0) :
    pmGet ((PieceManager.VerifyPiece sha1
        (PieceManager.VerifyPiece sha1
          (PieceManager.VerifyPiece sha1 pm idx).2 idx).2 idx).2).pieces idx =
      some ⟨piece.hash, none, false, false, 3⟩ :=
  verify_three_fails sha1 pm idx piece d hg hdn hdat hmis h0

/-- C4 witness: the amended theorem at a concrete three-failure run. -/
theorem C4_verify_failure_requeue_witness :
    pmGet ((PieceManager.VerifyPiece (fun _ => [0])
        (PieceManager.VerifyPiece (fun _ => [0])
          (PieceManager.VerifyPiece (fun _ => [0])
            (runOps (fun _ => [0]) (PieceManager.NewPieceManager 1 16384)
              [.addPiece 0 [1], .claimPiece 0, .markPieceDownloaded 0 []]) 0).2 0).2 0).2).pieces 0 =
      some ⟨[1], none, false, false, 3⟩ :=
  C4_verify_failure_requeue_amended (fun _ => [0])
    (runOps (fun _ => [0]) (PieceManager.NewPieceManager 1 16384)
      [.addPiece 0 [1], .claimPiece 0, .markPieceDownloaded 0 []]) 0
    ⟨[1], some [], true, false, 0⟩ [] (by rfl) (by rfl) (by rfl) (by decide) (by rfl)

/-- C10 (counterexample): re-seeding an existing downloaded index with
`AddPiece` resets the entry's flag without touching the counter, so
`downloadedCount` = 1 while no piece has `isDownloaded` set. -/
theorem C10_count_counterexample :
    (runOps (fun _ => []) (PieceManager.NewPieceManager 1 16384)
      [.addPiece 0 [1], .claimPiece 0, .markPieceDownloaded 0 [2],
        .addPiece 0 [1]]).downloadedCount = 1 ∧
    countDownloaded (runOps (fun _ => []) (PieceManager.NewPieceManager 1 16384)
      [.addPiece 0 [1], .claimPiece 0, .markPieceDownloaded 0 [2],
        .addPiece 0 [1]]).pieces = 0 ∧ (1 : Int) ≠ 0 := by
  refine ⟨rfl, rfl, by decide⟩

/-- C10 (amended): over every run whose `AddPiece` calls only seed fresh
indices, `downloadedCount` equals the number of pieces whose `isDownloaded`
flag is set, and hence lies between 0 and the number of pieces. -/
theorem C10_count_invariant_amended (sha1 : List Nat → List Nat)
    (pc ps : Int) (ops : List PMOp)
    (hfresh : freshAdds sha1 (PieceManager.NewPieceManager pc ps) ops = true) :
    (runOps sha1 (PieceManager.NewPieceManager pc ps) ops).downloadedCount =
      countDownloaded (runOps sha1 (PieceManager.NewPieceManager pc ps) ops).pieces ∧
    0 ≤ (runOps sha1 (PieceManager.NewPieceManager pc ps) ops).downloadedCount ∧
    (runOps sha1 (PieceManager.NewPieceManager pc ps) ops).downloadedCount ≤
      ((runOps sha1 (PieceManager.NewPieceManager pc ps) ops).pieces.length : Int) := by
  have hinv := pmInv_runOps sha1 ops _ (pmInv_new pc ps) hfresh
  refine ⟨hinv.1, ?_, ?_⟩
  · rw [hinv.1]
    unfold countDownloaded
    positivity
  · rw [hinv.1]
    unfold countDownloaded
    have := List.length_filter_le (fun e : Int × GoPiece => e.2.isDownloaded)
      (runOps sha1 (PieceManager.NewPieceManager pc ps) ops).pieces
    exact_mod_cast this

/-- C10 witness: the amended invariant at a concrete run. -/
theorem C10_count_invariant_witness :
    (runOps (fun _ => []) (PieceManager.NewPieceManager 2 16384)
      [.addPiece 0 [1], .addPiece 1 [2], .claimPiece 0,
        .markPieceDownloaded 0 [3]]).downloadedCount =
      countDownloaded (runOps (fun _ => []) (PieceManager.NewPieceManager 2 16384)
        [.addPiece 0 [1], .addPiece 1 [2], .claimPiece 0,
          .markPieceDownloaded 0 [3]]).pieces :=
  (C10_count_invariant_amended (fun _ => []) 2 16384
    [.addPiece 0 [1], .addPiece 1 [2], .claimPiece 0,
      .markPieceDownloaded 0 [3]] (by rfl)).1

/-- C5 (counterexample): a 68-byte handshake response whose length byte is
0 — not 19 — passes `ValidateHandshakeResponse`, because the function never
examines `response[0]`. -/
theorem C5_length_byte_counterexample :
    (0 :: PROTOCOL_STRING ++ List.replicate 8 0 ++ List.replicate 20 0 ++
      List.replicate 20 0).length = 68 ∧
    (0 : Nat) ≠ 19 ∧
    ValidateHandshakeResponse (0 :: PROTOCOL_STRING ++ List.replicate 8 0 ++
      List.replicate 20 0 ++ List.replicate 20 0) (List.replicate 20 0) = .ok () := by
  refine ⟨by decide, by decide, by rfl⟩

/-- C5 (amended): the serialised handshake for 20-byte info-hash and
peer-id is exactly the 68-byte fixed layout — length byte 19, the protocol
string, 8 zero reserved bytes, info-hash, peer-id — and validation of a
68-byte response succeeds exactly when the protocol string (bytes 1..19)
and the info-hash (bytes 28..47) match; the length byte and the peer-id
field are not examined. -/
theorem C5_handshake_amended :
    (∀ ih pid : List Nat, ih.length = 20 → pid.length = 20 →
      CreateHandshake ih pid =
        .ok (19 :: PROTOCOL_STRING ++ List.replicate 8 0 ++ ih ++ pid) ∧
      (19 :: PROTOCOL_STRING ++ List.replicate 8 0 ++ ih ++ pid).length = 68) ∧
    (∀ response expected : List Nat, response.length = 68 →
      (ValidateHandshakeResponse response expected = .ok () ↔
        ((response.drop 1).take 19 = PROTOCOL_STRING ∧
          (response.drop 28).take 20 = expected))) := by
  constructor
  · intro ih pid h1 h2
    constructor
    · unfold CreateHandshake
      rw [if_neg (by omega), if_neg (by omega)]
      rfl
    · have hp : PROTOCOL_STRING.length = 19 := rfl
      simp [List.length_append, h1, h2, hp]
  · intro response expected hlen
    unfold ValidateHandshakeResponse
    rw [if_neg (by omega)]
    constructor
    · intro h
      by_cases hp : (response.drop 1).take 19 = PROTOCOL_STRING
      · by_cases hh : (response.drop 28).take 20 = expected
        · exact ⟨hp, hh⟩
        · rw [if_neg (by simpa using hp), if_pos (by simpa using hh)] at h
          exact absurd h (by simp)
      · rw [if_pos (by simpa using hp)] at h
        exact absurd h (by simp)
    · rintro ⟨hp, hh⟩
      rw [if_neg (by simpa using hp), if_neg (by simpa using hh)]

/-- C5 witness: serialisation and validation at concrete 20-byte values. -/
theorem C5_handshake_witness :
    CreateHandshake (List.replicate 20 1) (List.replicate 20 2) =
      .ok (19 :: PROTOCOL_STRING ++ List.replicate 8 0 ++ List.replicate 20 1 ++
        List.replicate 20 2) ∧
    (ValidateHandshakeResponse (19 :: PROTOCOL_STRING ++ List.replicate 8 0 ++
        List.replicate 20 1 ++ List.replicate 20 2) (List.replicate 20 1) = .ok () ↔
      (((19 :: PROTOCOL_STRING ++ List.replicate 8 0 ++ List.replicate 20 1 ++
          List.replicate 20 2).drop 1).take 19 = PROTOCOL_STRING ∧
        ((19 :: PROTOCOL_STRING ++ List.replicate 8 0 ++ List.replicate 20 1 ++
          List.replicate 20 2).drop 28).take 20 = List.replicate 20 1)) :=
  ⟨(C5_handshake_amended.1 (List.replicate 20 1) (List.replicate 20 2)
      (by decide) (by decide)).1,
    C5_handshake_amended.2 _ _ (by decide)⟩

/-- C6: `CanDownload` returns `am_interested && peer_choking` — the
negation on `peer_choking` is missing.  At the state where we are
interested and the peer IS choking us it returns `true` (the claim and the
BitTorrent protocol say downloading is not permitted), and at the state
where the peer has unchoked us it returns `false` (the claim says
downloading is permitted). -/
theorem C6_canDownload_eval :
    CanDownload ⟨⟨true, true, true, false⟩⟩ = true ∧
    CanDownload ⟨⟨true, true, false, false⟩⟩ = false ∧
    ∀ p : Peer, CanDownload p = (p.peer_state.am_interested && p.peer_state.peer_choking) :=
  ⟨rfl, rfl, fun _ => rfl⟩

/-- C7 (counterexample): with an empty `announce-list`, `GatherTrackers`
returns the empty list — the `announce` URL is dropped by the final
`trackers[1:]`, so it is not the first element of the result. -/
theorem C7_announce_dropped_counterexample :
    GatherTrackers ⟨"http://a/ann", []⟩ = [] ∧
    ([] : List String) ≠ ["http://a/ann"] := by
  refine ⟨rfl, by simp⟩

/-- C7 (amended): the tracker list equals the flattened `announce-list`
tiers in first-seen order with duplicates retained, each URL re-serialised
after parsing, where unparseable URLs and URLs with scheme `udp` are
skipped; the primary `announce` URL is excluded (seeded at index 0 and then
sliced off by `trackers[1:]`). -/
theorem C7_tracker_list_amended (t : Torrent) :
    GatherTrackers t = t.AnnounceList.flatten.filterMap trackerFilter :=
  GatherTrackers_eq t

theorem getD_cons6 (b0 b1 b2 b3 b4 b5 : Nat) (rest : List Nat) (m : Nat) :
    (b0 :: b1 :: b2 :: b3 :: b4 :: b5 :: rest).getD (m + 6) 0 = rest.getD m 0 := by
  simp [List.getD_cons_succ]

theorem compactGroups_spec : ∀ n (bs : List Nat), bs.length ≤ n → bs.length % 6 = 0 →
    (compactGroups bs).length = bs.length / 6 ∧
    ∀ j, j < bs.length / 6 →
      (compactGroups bs).getD j [] =
        peerString (bs.getD (6*j) 0) (bs.getD (6*j+1) 0) (bs.getD (6*j+2) 0)
          (bs.getD (6*j+3) 0) (bs.getD (6*j+4) 0) (bs.getD (6*j+5) 0) := by
  intro n
  induction n with
  | zero =>
    intro bs hle _
    have hnil : bs = [] := List.eq_nil_of_length_eq_zero (by omega)
    subst hnil
    exact ⟨by simp [compactGroups], by intro j hj; simp at hj⟩
  | succ n ih =>
    intro bs hle h6
    match bs with
    | [] => exact ⟨by simp [compactGroups], by intro j hj; simp at hj⟩
    | [b0] => exact absurd h6 (by simp)
    | [b0, b1] => exact absurd h6 (by simp)
    | [b0, b1, b2] => exact absurd h6 (by simp)
    | [b0, b1, b2, b3] => exact absurd h6 (by simp)
    | [b0, b1, b2, b3, b4] => exact absurd h6 (by simp)
    | b0 :: b1 :: b2 :: b3 :: b4 :: b5 :: rest =>
      have hr6 : rest.length % 6 = 0 := by
        simp only [List.length_cons] at h6
        omega
      have hrle : rest.length ≤ n := by
        simp only [List.length_cons] at hle
        omega
      obtain ⟨ihl, ihg⟩ := ih rest hrle hr6
      constructor
      · show (peerString b0 b1 b2 b3 b4 b5 :: compactGroups rest).length = _
        simp only [List.length_cons, ihl]
        omega
      · intro j hj
        simp only [List.length_cons] at hj
        cases j with
        | zero =>
          show (peerString b0 b1 b2 b3 b4 b5 :: compactGroups rest).getD 0 [] = _
          norm_num [List.getD]
        | succ j' =>
          have hj' : j' < rest.length / 6 := by omega
          have hrec := ihg j' hj'
          show (peerString b0 b1 b2 b3 b4 b5 :: compactGroups rest).getD (j' + 1) [] = _
          rw [List.getD_cons_succ, hrec,
            show 6 * (j' + 1) + 5 = (6 * j' + 5) + 6 from by ring,
            show 6 * (j' + 1) + 4 = (6 * j' + 4) + 6 from by ring,
            show 6 * (j' + 1) + 3 = (6 * j' + 3) + 6 from by ring,
            show 6 * (j' + 1) + 2 = (6 * j' + 2) + 6 from by ring,
            show 6 * (j' + 1) + 1 = (6 * j' + 1) + 6 from by ring,
            show 6 * (j' + 1) = 6 * j' + 6 from by ring,
            getD_cons6, getD_cons6, getD_cons6, getD_cons6, getD_cons6, getD_cons6]

/-- C8: compact peer-list parsing.  A byte string whose length is a
multiple of 6 parses without error into one `host:port` string per 6-byte
group — the dotted quad of the first four bytes and the decimal big-endian
port of the last two; the empty string parses to the empty list; the
spec's example bytes parse to `127.0.0.1:6881`; and any other length is an
error. -/
theorem C8_compact_peers :
    (∀ bs : List Nat, bs.length % 6 = 0 →
      ∃ l, parseCompactPeers bs = .ok l ∧ l.length = bs.length / 6 ∧
        ∀ j, j < l.length →
          l.getD j [] =
            peerString (bs.getD (6*j) 0) (bs.getD (6*j+1) 0) (bs.getD (6*j+2) 0)
              (bs.getD (6*j+3) 0) (bs.getD (6*j+4) 0) (bs.getD (6*j+5) 0)) ∧
    parseCompactPeers [] = .ok [] ∧
    parseCompactPeers [0x7f, 0, 0, 1, 0x1a, 0xe1] = .ok [strBytes "127.0.0.1:6881"] ∧
    (∀ bs : List Nat, bs.length % 6 ≠ 0 → parseCompactPeers bs = .error .lenErr) := by
  refine ⟨?_, by rfl, by rfl, ?_⟩
  · intro bs h6
    obtain ⟨hl, hg⟩ := compactGroups_spec bs.length bs le_rfl h6
    refine ⟨compactGroups bs, ?_, hl, ?_⟩
    · unfold parseCompactPeers
      rw [if_neg (by omega)]
    · intro j hj
      exact hg j (by omega)
  · intro bs h6
    unfold parseCompactPeers
    rw [if_pos h6]

/-- C8 witness: the compact parser at the spec's example bytes and at an
odd-length input. -/
theorem C8_compact_peers_witness :
    (∃ l, parseCompactPeers [0x7f, 0, 0, 1, 0x1a, 0xe1] = .ok l ∧
      l.length = 1 ∧
      ∀ j, j < l.length →
        l.getD j [] = peerString ([0x7f, 0, 0, 1, 0x1a, 0xe1].getD (6*j) 0)
          ([0x7f, 0, 0, 1, 0x1a, 0xe1].getD (6*j+1) 0)
          ([0x7f, 0, 0, 1, 0x1a, 0xe1].getD (6*j+2) 0)
          ([0x7f, 0, 0, 1, 0x1a, 0xe1].getD (6*j+3) 0)
          ([0x7f, 0, 0, 1, 0x1a, 0xe1].getD (6*j+4) 0)
          ([0x7f, 0, 0, 1, 0x1a, 0xe1].getD (6*j+5) 0)) ∧
    parseCompactPeers [1, 2, 3] = .error .lenErr :=
  ⟨C8_compact_peers.1 [0x7f, 0, 0, 1, 0x1a, 0xe1] (by decide),
    C8_compact_peers.2.2.2 [1, 2, 3] (by decide)⟩

/-! ## Adequacy of the decoder's fuel

The fuel parameter is a proof artifact: on any input, fuel `2·length + 2`
is never exhausted, so `Decode` is total in exactly the way the Go decoder
is — every run ends in a value or in one of the source's error returns. -/

theorem readUntil_consumes (stop : Nat) :
    ∀ input content rest, readUntil stop input = .ok (content, rest) →
      rest.length < input.length := by
  intro input
  induction input with
  | nil => intro content rest h; simp [readUntil] at h
  | cons b tl ih =>
    intro content rest h
    unfold readUntil at h
    split at h
    · rw [Except.ok.injEq, Prod.mk.injEq] at h
      obtain ⟨_, hr⟩ := h
      subst hr
      simp
    · rcases hru : readUntil stop tl with e | ⟨c2, r2⟩ <;>
        rw [hru] at h <;> simp only [bind, Except.bind] at h
      · simp at h
      · rw [Except.ok.injEq, Prod.mk.injEq] at h
        obtain ⟨_, hr⟩ := h
        subst hr
        have := ih c2 r2 hru
        simp only [List.length_cons]
        omega

theorem readLen_le : ∀ input : List Nat, (readLen input).2.length ≤ input.length := by
  intro input
  induction input with
  | nil => simp [readLen]
  | cons b tl ih =>
    unfold readLen
    split
    · simp
    · simp only [List.length_cons]
      omega

theorem decodeInt_consumes (input : List Nat) (v : BValue) (rest : List Nat)
    (h : decodeInt input = .ok (v, rest)) : rest.length < input.length := by
  unfold decodeInt at h
  rcases hru : readUntil eByte input with e | ⟨digits, r⟩ <;>
    rw [hru] at h <;> simp only [bind, Except.bind] at h
  · simp at h
  · rcases hat : atoi digits with e | i <;> rw [hat] at h
    · simp at h
    · rw [Except.ok.injEq, Prod.mk.injEq] at h
      obtain ⟨_, hr⟩ := h
      subst hr
      exact readUntil_consumes eByte input digits r hru

theorem decodeString_consumes (firstByte : Nat) (input : List Nat) (v : BValue)
    (rest : List Nat) (h : decodeString firstByte input = .ok (v, rest)) :
    rest.length ≤ input.length := by
  simp only [decodeString] at h
  rcases hat : atoi (firstByte :: (readLen input).1) with e | len <;>
    rw [hat] at h <;> simp only [bind, Except.bind] at h
  · simp at h
  · split at h
    · simp at h
    · split at h
      · simp at h
      · rw [Except.ok.injEq, Prod.mk.injEq] at h
        obtain ⟨_, hr⟩ := h
        subst hr
        calc ((readLen input).2.drop len.toNat).length
            ≤ (readLen input).2.length := by
              rw [List.length_drop]; omega
          _ ≤ input.length := readLen_le input

theorem decode_progress_aux : ∀ fuel,
    (∀ input v rest, DecodeF fuel input = .ok (v, rest) → rest.length < input.length) ∧
    (∀ input vs rest, decodeList fuel input = .ok (vs, rest) → rest.length < input.length) ∧
    (∀ input acc es rest, decodeDict fuel input acc = .ok (es, rest) →
      rest.length < input.length) := by
  intro fuel
  induction fuel with
  | zero =>
    refine ⟨?_, ?_, ?_⟩
    · intro input v rest h; simp [DecodeF] at h
    · intro input vs rest h; simp [decodeList] at h
    · intro input acc es rest h; simp [decodeDict] at h
  | succ fuel ih =>
    obtain ⟨ih1, ih2, ih3⟩ := ih
    refine ⟨?_, ?_, ?_⟩
    · intro input v rest h
      match input with
      | [] => simp [DecodeF] at h
      | b :: rest' =>
        unfold DecodeF at h
        split at h
        · have := decodeInt_consumes rest' v rest h
          simp only [List.length_cons]
          omega
        · split at h
          · rcases hdl : decodeList fuel rest' with e | ⟨items, r⟩ <;>
              rw [hdl] at h <;> simp only [bind, Except.bind] at h
            · simp at h
            · rw [Except.ok.injEq, Prod.mk.injEq] at h
              obtain ⟨_, hr⟩ := h
              subst hr
              have := ih2 rest' items r hdl
              simp only [List.length_cons]
              omega
          · split at h
            · rcases hdd : decodeDict fuel rest' [] with e | ⟨es, r⟩ <;>
                rw [hdd] at h <;> simp only [bind, Except.bind] at h
              · simp at h
              · rw [Except.ok.injEq, Prod.mk.injEq] at h
                obtain ⟨_, hr⟩ := h
                subst hr
                have := ih3 rest' [] es r hdd
                simp only [List.length_cons]
                omega
            · have := decodeString_consumes b rest' v rest h
              simp only [List.length_cons]
              omega
    · intro input vs rest h
      match input with
      | [] => simp [decodeList] at h
      | b :: rest' =>
        unfold decodeList at h
        split at h
        · rw [Except.ok.injEq, Prod.mk.injEq] at h
          obtain ⟨_, hr⟩ := h
          subst hr
          simp
        · rcases hd1 : DecodeF fuel (b :: rest') with e | ⟨v1, r1⟩ <;>
            rw [hd1] at h <;> simp only [bind, Except.bind] at h
          · simp at h
          · rcases hd2 : decodeList fuel r1 with e | ⟨vs1, r2⟩ <;> rw [hd2] at h
            · simp at h
            · rw [Except.ok.injEq, Prod.mk.injEq] at h
              obtain ⟨_, hr⟩ := h
              subst hr
              have hc1 := ih1 _ _ _ hd1
              have hc2 := ih2 _ _ _ hd2
              dsimp only
              omega
    · intro input acc es rest h
      match input with
      | [] => simp [decodeDict] at h
      | b :: rest' =>
        unfold decodeDict at h
        split at h
        · rw [Except.ok.injEq, Prod.mk.injEq] at h
          obtain ⟨_, hr⟩ := h
          subst hr
          simp
        · rcases hd1 : DecodeF fuel (b :: rest') with e | ⟨kv, r⟩ <;>
            rw [hd1] at h <;> simp only [bind, Except.bind] at h
          · simp at h
          · cases kv with
            | str ks =>
              rcases hd2 : DecodeF fuel r with e | ⟨v1, r1⟩ <;>
                rw [hd2] at h <;> simp only [bind, Except.bind] at h
              · simp at h
              · have hc1 := ih1 _ _ _ hd1
                have hc2 := ih1 _ _ _ hd2
                have hc3 := ih3 _ _ _ _ h
                omega
            | int i => simp at h
            | list its => simp at h
            | dict ds => simp at h

theorem readUntil_ne_fuelErr (stop : Nat) :
    ∀ input, readUntil stop input ≠ .error .fuelErr := by
  intro input
  induction input with
  | nil => simp [readUntil]
  | cons b tl ih =>
    unfold readUntil
    split
    · simp
    · intro h
      rcases hru : readUntil stop tl with e | ⟨c2, r2⟩ <;>
        rw [hru] at h <;> simp only [bind, Except.bind] at h
      · rw [Except.error.injEq] at h
        subst h
        exact ih hru
      · simp at h

theorem atoi_ne_fuelErr (s : List Nat) : atoi s ≠ .error .fuelErr := by
  intro h
  simp only [atoi] at h
  split at h
  · simp at h
  · split at h
    · split at h <;> split at h <;> simp at h
    · simp at h

theorem decodeInt_ne_fuelErr (input : List Nat) :
    decodeInt input ≠ .error .fuelErr := by
  intro h
  unfold decodeInt at h
  rcases hru : readUntil eByte input with e | ⟨digits, r⟩ <;>
    rw [hru] at h <;> simp only [bind, Except.bind] at h
  · rw [Except.error.injEq] at h
    subst h
    exact readUntil_ne_fuelErr eByte input hru
  · rcases hat : atoi digits with e | i <;> rw [hat] at h
    · rw [Except.error.injEq] at h
      subst h
      exact atoi_ne_fuelErr digits hat
    · simp at h

theorem decodeString_ne_fuelErr (firstByte : Nat) (input : List Nat) :
    decodeString firstByte input ≠ .error .fuelErr := by
  intro h
  simp only [decodeString] at h
  rcases hat : atoi (firstByte :: (readLen input).1) with e | len <;>
    rw [hat] at h <;> simp only [bind, Except.bind] at h
  · rw [Except.error.injEq] at h
    subst h
    exact atoi_ne_fuelErr _ hat
  · split at h
    · simp at h
    · split at h
      · simp at h
      · simp at h

theorem decode_fuel_adequate_aux : ∀ fuel,
    (∀ input, 2 * input.length + 1 ≤ fuel → DecodeF fuel input ≠ .error .fuelErr) ∧
    (∀ input, 2 * input.length + 2 ≤ fuel → decodeList fuel input ≠ .error .fuelErr) ∧
    (∀ input acc, 2 * input.length + 2 ≤ fuel →
      decodeDict fuel input acc ≠ .error .fuelErr) := by
  intro fuel
  induction fuel with
  | zero =>
    refine ⟨?_, ?_, ?_⟩
    · intro input hf; exact absurd hf (by omega)
    · intro input hf; exact absurd hf (by omega)
    · intro input acc hf; exact absurd hf (by omega)
  | succ fuel ih =>
    obtain ⟨ih1, ih2, ih3⟩ := ih
    refine ⟨?_, ?_, ?_⟩
    · intro input hf
      match input with
      | [] => simp [DecodeF]
      | b :: rest' =>
        unfold DecodeF
        split
        · exact decodeInt_ne_fuelErr rest'
        · split
          · intro h
            rcases hdl : decodeList fuel rest' with e | ⟨items, r⟩ <;>
              rw [hdl] at h <;> simp only [bind, Except.bind] at h
            · rw [Except.error.injEq] at h
              subst h
              exact ih2 rest' (by simp only [List.length_cons] at hf; omega) hdl
            · simp at h
          · split
            · intro h
              rcases hdd : decodeDict fuel rest' [] with e | ⟨es, r⟩ <;>
                rw [hdd] at h <;> simp only [bind, Except.bind] at h
              · rw [Except.error.injEq] at h
                subst h
                exact ih3 rest' [] (by simp only [List.length_cons] at hf; omega) hdd
              · simp at h
            · exact decodeString_ne_fuelErr b rest'
    · intro input hf
      match input with
      | [] => simp [decodeList]
      | b :: rest' =>
        unfold decodeList
        split
        · simp
        · intro h
          rcases hd1 : DecodeF fuel (b :: rest') with e | ⟨v1, r1⟩ <;>
            rw [hd1] at h <;> simp only [bind, Except.bind] at h
          · rw [Except.error.injEq] at h
            subst h
            exact ih1 (b :: rest')
              (by simp only [List.length_cons] at hf ⊢; omega) hd1
          · have hp1 := (decode_progress_aux fuel).1 _ _ _ hd1
            rcases hd2 : decodeList fuel r1 with e | ⟨vs1, r2⟩ <;>
              rw [hd2] at h <;> simp only [bind, Except.bind] at h
            · rw [Except.error.injEq] at h
              subst h
              exact ih2 r1
                (by simp only [List.length_cons] at hf hp1; omega) hd2
            · simp at h
    · intro input acc hf
      match input with
      | [] => simp [decodeDict]
      | b :: rest' =>
        unfold decodeDict
        split
        · simp
        · intro h
          rcases hd1 : DecodeF fuel (b :: rest') with e | ⟨kv, r⟩ <;>
            rw [hd1] at h <;> simp only [bind, Except.bind] at h
          · rw [Except.error.injEq] at h
            subst h
            exact ih1 (b :: rest')
              (by simp only [List.length_cons] at hf ⊢; omega) hd1
          · cases kv with
            | str ks =>
              have hp1 := (decode_progress_aux fuel).1 _ _ _ hd1
              rcases hd2 : DecodeF fuel r with e | ⟨v1, r1⟩ <;>
                rw [hd2] at h <;> simp only [bind, Except.bind] at h
              · rw [Except.error.injEq] at h
                subst h
                exact ih1 r
                  (by simp only [List.length_cons] at hf hp1; omega) hd2
              · have hp2 := (decode_progress_aux fuel).1 _ _ _ hd2
                exact ih3 r1 (mapSet acc ks v1)
                  (by simp only [List.length_cons] at hf hp1; omega) h
            | int i => simp at h
            | list its => simp at h
            | dict ds => simp at h

/-- The starting fuel of `Decode` is always sufficient: the model never
reports fuel exhaustion, so `Decode` is total in exactly the way the Go
decoder is - every run ends in a value or one of the Go error returns. -/
theorem Decode_fuel_sufficient (input : List Nat) :
    Decode input ≠ .error .fuelErr :=
  (decode_fuel_adequate_aux (2 * input.length + 2)).1 input (by omega)
